import Mathlib

/-!
# Verification of the coin_tax ledger accumulation engine

Shallow embedding of `src/portfolio.rs` and `src/transaction.rs` (data model
and ledger operations).  The Rust `HashMap<String, AssetHistory>` is modelled
as an association list with unique keys (entries are only inserted when the
key is absent); `f32` quantities are modelled as exact rationals `ℚ` (every
arithmetic fact proved below about the concrete scenarios also holds exactly
in `f32`, as the operands and results are exactly representable or round to
the compared literal); `Option::unwrap` panics are modelled by an outer
`Option` layer (`none` = panic), and the Rust `Result` by `Except`.
-/

namespace CoinTax

/-- `TransactionType` from `transaction.rs`. -/
inductive TransactionType where
  | Buy
  | Sell
  | Income
  | Convert
deriving DecidableEq, Repr, Inhabited

/-- `CoinConversion` from `transaction.rs`: destination asset name and amount. -/
structure CoinConversion where
  name : String
  quantity : ℚ
deriving DecidableEq, Repr, Inhabited

/-- `Transaction` from `transaction.rs`. -/
structure Transaction where
  timestamp : ℤ
  action : TransactionType
  asset : String
  quantity : ℚ
  price : ℚ
  conversion_to : Option CoinConversion
deriving DecidableEq, Repr, Inhabited

/-- `AssetHistory` from `portfolio.rs`: per-asset account state. -/
structure AssetHistory where
  name : String
  history : List Transaction
  quantity : ℚ
deriving DecidableEq, Repr, Inhabited

/-- `PortfolioError` from `portfolio.rs`. -/
inductive PortfolioError where
  | HistoryAccessError (attempted_access : String)
deriving DecidableEq, Repr

/-- `type Portfolio = HashMap<String, AssetHistory>`, modelled as an
association list (keys unique by construction: inserts happen only on
absent keys). -/
abbrev Portfolio := List (String × AssetHistory)

/-- The empty portfolio (`HashMap::new()`). -/
def portfolioEmpty : Portfolio := []

/-- `HashMap::contains_key`. -/
def containsKey (portfolio : Portfolio) (k : String) : Bool :=
  portfolio.any (fun e => e.1 = k)

/-- `HashMap::get` (also used to model the read side of `get_mut`). -/
def getAccount (portfolio : Portfolio) (k : String) : Option AssetHistory :=
  (portfolio.find? (fun e => e.1 = k)).map Prod.snd

/-- The write side of `get_mut`: replace the stored account under key `k`. -/
def updateAccount (portfolio : Portfolio) (k : String) (f : AssetHistory → AssetHistory) :
    Portfolio :=
  portfolio.map (fun e => if e.1 = k then (e.1, f e.2) else e)

/-- The loop of Rust `slice::binary_search` (`binary_search_by` with
`Ord for Transaction`, which compares `timestamp` only), searching
`history[left..right]`.  Returns `Ok(mid)` on an exact timestamp match and
`Err(left)` otherwise; `portfolio.rs` collapses both with
`unwrap_or_else(|e| e)`, so we return the resulting index directly. -/
def binarySearchGo (xs : List Transaction) (t : Transaction) (left right : ℕ) : ℕ :=
  if h : left < right then
    let mid := left + (right - left) / 2
    let x := xs.getD mid default
    if x.timestamp < t.timestamp then
      binarySearchGo xs t (mid + 1) right
    else if t.timestamp < x.timestamp then
      binarySearchGo xs t left mid
    else
      mid
  else
    left
termination_by right - left
decreasing_by
  · omega
  · omega

/-- `history.binary_search(&new_transaction).unwrap_or_else(|e| e)`. -/
def binarySearchPos (xs : List Transaction) (t : Transaction) : ℕ :=
  binarySearchGo xs t 0 xs.length

/-- `AssetHistory::push_into_history` from `portfolio.rs`. -/
def push_into_history (self : AssetHistory) (new_transaction : Transaction) : AssetHistory :=
  let pos := binarySearchPos self.history new_transaction
  { self with history := self.history.insertIdx pos new_transaction }

/-- `AssetHistory::add_transaction_to_asset` from `portfolio.rs`.
`none` models the `unwrap` panic on a `Convert` with `conversion_to = None`. -/
def add_transaction_to_asset (self : AssetHistory) (new_transaction : Transaction) :
    Option AssetHistory :=
  match new_transaction.action with
  | .Buy =>
      some (push_into_history
        { self with quantity := self.quantity + new_transaction.quantity } new_transaction)
  | .Sell =>
      some (push_into_history
        { self with quantity := self.quantity - new_transaction.quantity } new_transaction)
  | .Income =>
      some (push_into_history
        { self with quantity := self.quantity + new_transaction.quantity } new_transaction)
  | .Convert =>
      match new_transaction.conversion_to with
      | none => none
      | some conversion =>
          if self.name = conversion.name then
            some (push_into_history
              { self with quantity := self.quantity + conversion.quantity } new_transaction)
          else
            some (push_into_history
              { self with quantity := self.quantity - new_transaction.quantity } new_transaction)

/-- `add_new_asset_to_portfolio` from `portfolio.rs`. -/
def add_new_asset_to_portfolio (portfolio : Portfolio) (asset : String) : Portfolio :=
  if containsKey portfolio asset then
    portfolio
  else
    portfolio ++ [(asset, { name := asset, history := [], quantity := 0 })]

/-- The tail of `add_to_portfolio`: look up the primary asset's account and
apply the transaction to it. -/
def applyPrimary (portfolio : Portfolio) (transaction : Transaction) :
    Option (Except PortfolioError Portfolio) :=
  match getAccount portfolio transaction.asset with
  | none => some (.error (.HistoryAccessError transaction.asset))
  | some asset_history =>
      match add_transaction_to_asset asset_history transaction with
      | none => none
      | some updated =>
          some (.ok (updateAccount portfolio transaction.asset (fun _ => updated)))

/-- `add_to_portfolio` from `portfolio.rs`.  The outer `Option` models the
`unwrap` panic (`none`), the `Except` models `Result`. -/
def add_to_portfolio (portfolio : Portfolio) (transaction : Transaction) :
    Option (Except PortfolioError Portfolio) :=
  let portfolio := add_new_asset_to_portfolio portfolio transaction.asset
  if transaction.action = .Convert then
    match transaction.conversion_to with
    | none => none
    | some conversion =>
        let portfolio := add_new_asset_to_portfolio portfolio conversion.name
        match getAccount portfolio conversion.name with
        | none => some (.error (.HistoryAccessError conversion.name))
        | some coverted_to_asset =>
            match add_transaction_to_asset coverted_to_asset transaction with
            | none => none
            | some updated =>
                applyPrimary (updateAccount portfolio conversion.name (fun _ => updated))
                  transaction
  else
    applyPrimary portfolio transaction

/-- Feeding a stream of transactions into the ledger in arrival order,
stopping at the first error or panic (the caller propagates errors with `?`
and aborts the run). -/
def applyAll (portfolio : Portfolio) : List Transaction → Option (Except PortfolioError Portfolio)
  | [] => some (.ok portfolio)
  | t :: ts =>
      match add_to_portfolio portfolio t with
      | some (.ok p) => applyAll p ts
      | some (.error e) => some (.error e)
      | none => none

/-- The running quantity stored under key `k` (0 when the account is absent). -/
def qtyOf (portfolio : Portfolio) (k : String) : ℚ :=
  ((getAccount portfolio k).map AssetHistory.quantity).getD 0

/-- The length of the history stored under key `k` (0 when absent). -/
def histLenOf (portfolio : Portfolio) (k : String) : ℕ :=
  ((getAccount portfolio k).map (fun a => a.history.length)).getD 0

/-- The list of timestamps of the history stored under key `k`. -/
def timestampsOf (portfolio : Portfolio) (k : String) : List ℤ :=
  ((getAccount portfolio k).map (fun a => a.history.map Transaction.timestamp)).getD []

/-- How many copies of the record `t` are stored under key `k`. -/
def countRec (portfolio : Portfolio) (k : String) (t : Transaction) : ℕ :=
  ((getAccount portfolio k).map (fun a => a.history.count t)).getD 0

/-- A fresh account as created by `add_new_asset_to_portfolio`. -/
def blankAccount (a : String) : AssetHistory :=
  { name := a, history := [], quantity := 0 }

/-- Projection of a run result onto the successfully produced portfolio. -/
def runLedger (ts : List Transaction) : Option Portfolio :=
  match applyAll portfolioEmpty ts with
  | some (.ok p) => some p
  | _ => none

/-- `true` iff the call returned `Ok` (no error and no panic). -/
def isOk : Option (Except PortfolioError Portfolio) → Bool
  | some (.ok _) => true
  | _ => false

/-! ## Basic lemmas about the association-list model of `HashMap` -/

theorem containsKey_cons (e : String × AssetHistory) (p : Portfolio) (k : String) :
    containsKey (e :: p) k = ((e.1 = k : Bool) || containsKey p k) := by
  simp [containsKey]

theorem containsKey_append (p q : Portfolio) (k : String) :
    containsKey (p ++ q) k = (containsKey p k || containsKey q k) := by
  simp [containsKey, List.any_append]

theorem getAccount_cons (e : String × AssetHistory) (p : Portfolio) (k : String) :
    getAccount (e :: p) k = if e.1 = k then some e.2 else getAccount p k := by
  by_cases h : e.1 = k <;> simp [getAccount, List.find?_cons, h]

theorem getAccount_append (p q : Portfolio) (k : String) :
    getAccount (p ++ q) k = (getAccount p k).or (getAccount q k) := by
  unfold getAccount
  rw [List.find?_append]
  cases h : p.find? (fun e => e.1 = k) <;> simp [Option.or]

theorem getAccount_eq_none_iff (p : Portfolio) (k : String) :
    getAccount p k = none ↔ containsKey p k = false := by
  induction p with
  | nil => simp [getAccount, containsKey]
  | cons e p ih =>
      rw [getAccount_cons, containsKey_cons]
      by_cases h : e.1 = k <;> simp [h, ih]

theorem getAccount_isSome_of_contains {p : Portfolio} {k : String}
    (h : containsKey p k = true) : (getAccount p k).isSome := by
  cases hg : getAccount p k with
  | none => rw [getAccount_eq_none_iff] at hg; simp [hg] at h
  | some a => simp

/-! ## Lemmas about `add_new_asset_to_portfolio` -/

theorem add_new_of_contains {p : Portfolio} {a : String}
    (h : containsKey p a = true) : add_new_asset_to_portfolio p a = p := by
  simp [add_new_asset_to_portfolio, h]

theorem add_new_of_not_contains {p : Portfolio} {a : String}
    (h : containsKey p a = false) :
    add_new_asset_to_portfolio p a = p ++ [(a, blankAccount a)] := by
  simp [add_new_asset_to_portfolio, h, blankAccount]

theorem getAccount_add_new_of_ne {k a : String} (p : Portfolio) (h : k ≠ a) :
    getAccount (add_new_asset_to_portfolio p a) k = getAccount p k := by
  unfold add_new_asset_to_portfolio
  split
  · rfl
  · rw [getAccount_append, getAccount_cons, if_neg (Ne.symm h)]
    show (getAccount p k).or (getAccount [] k) = getAccount p k
    cases getAccount p k <;> rfl

theorem getAccount_add_new_self (p : Portfolio) (a : String) :
    getAccount (add_new_asset_to_portfolio p a) a
      = some ((getAccount p a).getD (blankAccount a)) := by
  unfold add_new_asset_to_portfolio
  split
  · rename_i h
    cases hg : getAccount p a with
    | none => rw [getAccount_eq_none_iff] at hg; simp [hg] at h
    | some x => simp
  · rename_i h
    have hg : getAccount p a = none := by
      rw [getAccount_eq_none_iff]; simpa using h
    rw [getAccount_append, getAccount_cons, if_pos rfl, hg]
    rfl

theorem containsKey_add_new (p : Portfolio) (a k : String) :
    containsKey (add_new_asset_to_portfolio p a) k
      = (containsKey p k || (a = k : Bool)) := by
  unfold add_new_asset_to_portfolio
  split
  · rename_i h
    by_cases hak : a = k
    · subst hak; simp [h]
    · simp [hak]
  · rw [containsKey_append, containsKey_cons]
    simp [containsKey]

/-! ## Lemmas about `updateAccount` -/

theorem getAccount_update_self (p : Portfolio) (k : String) (f : AssetHistory → AssetHistory) :
    getAccount (updateAccount p k f) k = (getAccount p k).map f := by
  induction p with
  | nil => rfl
  | cons e p ih =>
      unfold updateAccount at ih ⊢
      by_cases h : e.1 = k
      · simp only [List.map_cons, h, if_pos]
        rw [getAccount_cons, getAccount_cons]
        simp [h]
      · simp only [List.map_cons, h, if_neg, not_false_iff]
        rw [getAccount_cons, getAccount_cons]
        simp [h, ih]

theorem getAccount_update_ne {k' k : String} (p : Portfolio)
    (f : AssetHistory → AssetHistory) (h : k' ≠ k) :
    getAccount (updateAccount p k f) k' = getAccount p k' := by
  induction p with
  | nil => rfl
  | cons e p ih =>
      unfold updateAccount at ih ⊢
      by_cases he : e.1 = k
      · simp only [List.map_cons, he, if_pos]
        rw [getAccount_cons, getAccount_cons]
        simp only [he]
        simp [Ne.symm h, ih]
      · simp only [List.map_cons, he, if_neg, not_false_iff]
        rw [getAccount_cons, getAccount_cons]
        by_cases hk : e.1 = k' <;> simp [hk, ih]

theorem containsKey_update (p : Portfolio) (k k' : String) (f : AssetHistory → AssetHistory) :
    containsKey (updateAccount p k f) k' = containsKey p k' := by
  induction p with
  | nil => rfl
  | cons e p ih =>
      unfold updateAccount at ih ⊢
      by_cases he : e.1 = k
      · simp only [List.map_cons, he, if_pos]
        rw [containsKey_cons, containsKey_cons]
        simp [he, ih]
      · simp only [List.map_cons, he, if_neg, not_false_iff]
        rw [containsKey_cons, containsKey_cons]
        simp [ih]

/-! ## Bounds of the binary-search insertion position -/

theorem binarySearchGo_bounds (xs : List Transaction) (t : Transaction) :
    ∀ n left right, right - left = n → left ≤ right →
      left ≤ binarySearchGo xs t left right ∧ binarySearchGo xs t left right ≤ right := by
  intro n
  induction n using Nat.strong_induction_on with
  | _ n ih =>
    intro left right hn hlr
    rw [binarySearchGo]
    split
    · rename_i h
      dsimp only
      split
      · rename_i hlt
        obtain ⟨h1, h2⟩ :=
          ih (right - (left + (right - left) / 2 + 1)) (by omega)
            (left + (right - left) / 2 + 1) right rfl (by omega)
        exact ⟨by omega, h2⟩
      · split
        · rename_i hgt
          obtain ⟨h1, h2⟩ :=
            ih (left + (right - left) / 2 - left) (by omega)
              left (left + (right - left) / 2) rfl (by omega)
          exact ⟨h1, by omega⟩
        · exact ⟨by omega, by omega⟩
    · exact ⟨le_refl _, hlr⟩

theorem binarySearchPos_le_length (xs : List Transaction) (t : Transaction) :
    binarySearchPos xs t ≤ xs.length :=
  (binarySearchGo_bounds xs t xs.length 0 xs.length rfl (Nat.zero_le _)).2

/-! ## Structure of `push_into_history` and `add_transaction_to_asset` -/

theorem push_into_history_name (a : AssetHistory) (t : Transaction) :
    (push_into_history a t).name = a.name := rfl

theorem push_into_history_quantity (a : AssetHistory) (t : Transaction) :
    (push_into_history a t).quantity = a.quantity := rfl

theorem push_into_history_history (a : AssetHistory) (t : Transaction) :
    (push_into_history a t).history
      = a.history.insertIdx (binarySearchPos a.history t) t := rfl

theorem push_into_history_length (a : AssetHistory) (t : Transaction) :
    (push_into_history a t).history.length = a.history.length + 1 := by
  rw [push_into_history_history]
  exact List.length_insertIdx _ _ (binarySearchPos_le_length _ _)

theorem insertIdx_perm_cons {α : Type} (x : α) :
    ∀ (n : ℕ) (l : List α), n ≤ l.length → (l.insertIdx n x).Perm (x :: l)
  | 0, l, _ => by simp
  | n + 1, [], h => by simp at h
  | n + 1, a :: l, h => by
      rw [List.insertIdx_succ_cons]
      exact ((insertIdx_perm_cons x n l (by simpa using h)).cons a).trans
        (List.Perm.swap x a l)

theorem push_into_history_count (a : AssetHistory) (t : Transaction) :
    (push_into_history a t).history.count t = a.history.count t + 1 := by
  rw [push_into_history_history,
    (insertIdx_perm_cons t _ _ (binarySearchPos_le_length _ _)).count_eq]
  simp

/-- The per-account signed quantity effect implemented by
`add_transaction_to_asset` (source form, including the `Convert` branch on
`self.name == conversion.name`). -/
def deltaAcct (name : String) (t : Transaction) : ℚ :=
  match t.action with
  | .Buy => t.quantity
  | .Sell => -t.quantity
  | .Income => t.quantity
  | .Convert =>
      match t.conversion_to with
      | none => 0
      | some c => if name = c.name then c.quantity else -t.quantity

/-- Closed-form characterization of `add_transaction_to_asset`. -/
theorem add_transaction_to_asset_eq (a : AssetHistory) (t : Transaction) :
    add_transaction_to_asset a t =
      if t.action = TransactionType.Convert ∧ t.conversion_to = none then none
      else some (push_into_history
        { a with quantity := a.quantity + deltaAcct a.name t } t) := by
  obtain ⟨ts, act, asset, q, pr, conv⟩ := t
  cases act <;>
    simp only [add_transaction_to_asset, deltaAcct, sub_eq_add_neg] <;>
    try simp
  cases conv with
  | none => simp
  | some c =>
      by_cases h : a.name = c.name <;> simp [h, sub_eq_add_neg]

/-! ## The keys-match-names invariant -/

/-- Every stored account's `name` equals its map key (true of every portfolio
built by the code, since accounts are only created by
`add_new_asset_to_portfolio`). -/
def KeysNamed (p : Portfolio) : Prop := ∀ e ∈ p, e.2.name = e.1

theorem keysNamed_nil : KeysNamed portfolioEmpty := by
  intro e he; simp [portfolioEmpty] at he

theorem keysNamed_add_new {p : Portfolio} (h : KeysNamed p) (a : String) :
    KeysNamed (add_new_asset_to_portfolio p a) := by
  unfold add_new_asset_to_portfolio
  split
  · exact h
  · intro e he
    rcases List.mem_append.mp he with h1 | h1
    · exact h e h1
    · simp at h1; subst h1; rfl

theorem keysNamed_update {p : Portfolio} {f : AssetHistory → AssetHistory}
    (h : KeysNamed p) (k : String) (hf : ∀ x, (f x).name = x.name) :
    KeysNamed (updateAccount p k f) := by
  intro e he
  unfold updateAccount at he
  rcases List.mem_map.mp he with ⟨e', he', rfl⟩
  split
  · rename_i hk
    simp [hf, h e' he', hk]
  · exact h e' he'

theorem name_of_getAccount {p : Portfolio} {k : String} {a : AssetHistory}
    (h : KeysNamed p) (hg : getAccount p k = some a) : a.name = k := by
  unfold getAccount at hg
  cases hf : p.find? (fun e => e.1 = k) with
  | none => rw [hf] at hg; simp at hg
  | some e =>
      rw [hf] at hg
      simp at hg
      have h1 : e.1 = k := by simpa using List.find?_some hf
      have h2 := h e (List.mem_of_find?_eq_some hf)
      rw [← hg, h2, h1]

/-! ## Projections through `add_new_asset_to_portfolio` -/

theorem qtyOf_add_new (p : Portfolio) (a k : String) :
    qtyOf (add_new_asset_to_portfolio p a) k = qtyOf p k := by
  by_cases h : k = a
  · subst h
    unfold qtyOf
    rw [getAccount_add_new_self]
    cases hg : getAccount p k <;> simp [hg, blankAccount]
  · unfold qtyOf
    rw [getAccount_add_new_of_ne p h]

theorem histLenOf_add_new (p : Portfolio) (a k : String) :
    histLenOf (add_new_asset_to_portfolio p a) k = histLenOf p k := by
  by_cases h : k = a
  · subst h
    unfold histLenOf
    rw [getAccount_add_new_self]
    cases hg : getAccount p k <;> simp [hg, blankAccount]
  · unfold histLenOf
    rw [getAccount_add_new_of_ne p h]

theorem countRec_add_new (p : Portfolio) (a k : String) (t : Transaction) :
    countRec (add_new_asset_to_portfolio p a) k t = countRec p k t := by
  by_cases h : k = a
  · subst h
    unfold countRec
    rw [getAccount_add_new_self]
    cases hg : getAccount p k <;> simp [hg, blankAccount]
  · unfold countRec
    rw [getAccount_add_new_of_ne p h]

theorem timestampsOf_add_new (p : Portfolio) (a k : String) :
    timestampsOf (add_new_asset_to_portfolio p a) k = timestampsOf p k := by
  by_cases h : k = a
  · subst h
    unfold timestampsOf
    rw [getAccount_add_new_self]
    cases hg : getAccount p k <;> simp [hg, blankAccount]
  · unfold timestampsOf
    rw [getAccount_add_new_of_ne p h]

theorem qtyOf_eq_of_getAccount {p : Portfolio} {k : String} {a : AssetHistory}
    (hg : getAccount p k = some a) : qtyOf p k = a.quantity := by
  simp [qtyOf, hg]

theorem histLenOf_eq_of_getAccount {p : Portfolio} {k : String} {a : AssetHistory}
    (hg : getAccount p k = some a) : histLenOf p k = a.history.length := by
  simp [histLenOf, hg]

theorem countRec_eq_of_getAccount {p : Portfolio} {k : String} {a : AssetHistory}
    {t : Transaction} (hg : getAccount p k = some a) :
    countRec p k t = a.history.count t := by
  simp [countRec, hg]

theorem keysNamed_update_const {p : Portfolio} {b : AssetHistory} {k : String}
    (h : KeysNamed p) (hb : b.name = k) : KeysNamed (updateAccount p k (fun _ => b)) := by
  intro e he
  unfold updateAccount at he
  rcases List.mem_map.mp he with ⟨e', he', rfl⟩
  split
  · rename_i hk
    simpa [hb] using hk.symm
  · exact h e' he'

/-! ## Closed-form success characterizations of `add_to_portfolio` -/

theorem add_to_portfolio_not_convert (p : Portfolio) (t : Transaction)
    (hact : t.action ≠ TransactionType.Convert) :
    ∃ a, getAccount (add_new_asset_to_portfolio p t.asset) t.asset = some a ∧
      add_to_portfolio p t = some (.ok
        (updateAccount (add_new_asset_to_portfolio p t.asset) t.asset
          (fun _ =>
            push_into_history { a with quantity := a.quantity + deltaAcct a.name t } t))) := by
  refine ⟨(getAccount p t.asset).getD (blankAccount t.asset),
    getAccount_add_new_self p t.asset, ?_⟩
  unfold add_to_portfolio
  rw [if_neg hact]
  unfold applyPrimary
  rw [getAccount_add_new_self]
  dsimp only
  rw [add_transaction_to_asset_eq, if_neg (by simp [hact])]

theorem add_to_portfolio_convert (p : Portfolio) (t : Transaction) (c : CoinConversion)
    (hact : t.action = TransactionType.Convert) (hc : t.conversion_to = some c) :
    ∃ d s,
      getAccount (add_new_asset_to_portfolio (add_new_asset_to_portfolio p t.asset) c.name)
          c.name = some d ∧
      getAccount (updateAccount
          (add_new_asset_to_portfolio (add_new_asset_to_portfolio p t.asset) c.name) c.name
          (fun _ =>
            push_into_history { d with quantity := d.quantity + deltaAcct d.name t } t))
          t.asset = some s ∧
      add_to_portfolio p t = some (.ok
        (updateAccount
          (updateAccount
            (add_new_asset_to_portfolio (add_new_asset_to_portfolio p t.asset) c.name) c.name
            (fun _ =>
              push_into_history { d with quantity := d.quantity + deltaAcct d.name t } t))
          t.asset
          (fun _ =>
            push_into_history { s with quantity := s.quantity + deltaAcct s.name t } t))) := by
  set p₁ := add_new_asset_to_portfolio (add_new_asset_to_portfolio p t.asset) c.name with hp₁
  set d := (getAccount (add_new_asset_to_portfolio p t.asset) c.name).getD (blankAccount c.name)
    with hdd
  have hd : getAccount p₁ c.name = some d := getAccount_add_new_self _ c.name
  set p₂ := updateAccount p₁ c.name
    (fun _ => push_into_history { d with quantity := d.quantity + deltaAcct d.name t } t)
    with hp₂
  have hcont : containsKey p₂ t.asset = true := by
    rw [hp₂, containsKey_update, hp₁, containsKey_add_new, containsKey_add_new]
    simp
  obtain ⟨s, hs⟩ := Option.isSome_iff_exists.mp (getAccount_isSome_of_contains hcont)
  refine ⟨d, s, hd, hs, ?_⟩
  unfold add_to_portfolio
  rw [if_pos hact, hc]
  dsimp only
  rw [← hp₁, hd]
  dsimp only
  rw [add_transaction_to_asset_eq, if_neg (by simp [hc])]
  dsimp only
  rw [← hp₂]
  unfold applyPrimary
  rw [hs]
  dsimp only
  rw [add_transaction_to_asset_eq, if_neg (by simp [hc])]

/-! ## The per-transaction effect of `add_to_portfolio` -/

/-- Total signed effect of one `add_to_portfolio` call on the quantity of the
account keyed `k`, as implemented: a `Convert` first credits the destination
account and then applies the source-side pass to the primary account (which,
when the two names coincide, credits the destination amount a second time). -/
def effectOn (k : String) (t : Transaction) : ℚ :=
  match t.action with
  | .Buy => if k = t.asset then t.quantity else 0
  | .Sell => if k = t.asset then -t.quantity else 0
  | .Income => if k = t.asset then t.quantity else 0
  | .Convert =>
      match t.conversion_to with
      | none => 0
      | some c =>
          (if k = c.name then c.quantity else 0) +
          (if k = t.asset then (if k = c.name then c.quantity else -t.quantity) else 0)

/-- Number of copies of the record inserted into the history keyed `k` by one
`add_to_portfolio` call. -/
def recsAdded (k : String) (t : Transaction) : ℕ :=
  match t.action with
  | .Buy => if k = t.asset then 1 else 0
  | .Sell => if k = t.asset then 1 else 0
  | .Income => if k = t.asset then 1 else 0
  | .Convert =>
      match t.conversion_to with
      | none => 0
      | some c => (if k = c.name then 1 else 0) + (if k = t.asset then 1 else 0)

theorem deltaAcct_eq_of_not_convert {t : Transaction}
    (h : t.action ≠ TransactionType.Convert) (n m : String) :
    deltaAcct n t = deltaAcct m t := by
  obtain ⟨ts, act, asset, q, pr, conv⟩ := t
  cases act <;> simp [deltaAcct] <;> simp at h

theorem effectOn_of_not_convert {t : Transaction}
    (h : t.action ≠ TransactionType.Convert) (k : String) :
    effectOn k t = if k = t.asset then deltaAcct k t else 0 := by
  obtain ⟨ts, act, asset, q, pr, conv⟩ := t
  cases act <;> simp [effectOn, deltaAcct] <;> simp at h

theorem recsAdded_of_not_convert {t : Transaction}
    (h : t.action ≠ TransactionType.Convert) (k : String) :
    recsAdded k t = if k = t.asset then 1 else 0 := by
  obtain ⟨ts, act, asset, q, pr, conv⟩ := t
  cases act <;> simp [recsAdded] <;> simp at h

theorem effectOn_convert {t : Transaction} {c : CoinConversion}
    (hc : t.conversion_to = some c) (hact : t.action = TransactionType.Convert) (k : String) :
    effectOn k t =
      (if k = c.name then c.quantity else 0) +
      (if k = t.asset then (if k = c.name then c.quantity else -t.quantity) else 0) := by
  unfold effectOn
  rw [hact, hc]

theorem recsAdded_convert {t : Transaction} {c : CoinConversion}
    (hc : t.conversion_to = some c) (hact : t.action = TransactionType.Convert) (k : String) :
    recsAdded k t = (if k = c.name then 1 else 0) + (if k = t.asset then 1 else 0) := by
  unfold recsAdded
  rw [hact, hc]

/-- Workhorse bundle: a successful `add_to_portfolio` exists under the caller
contract, and its effect on every key is described by `effectOn`/`recsAdded`;
untouched keys keep their accounts and no key is removed. -/
theorem add_to_portfolio_effects (p : Portfolio) (t : Transaction)
    (hname : KeysNamed p)
    (hcc : t.action = TransactionType.Convert → t.conversion_to ≠ none) :
    ∃ p', add_to_portfolio p t = some (.ok p') ∧
      KeysNamed p' ∧
      (∀ k, qtyOf p' k = qtyOf p k + effectOn k t) ∧
      (∀ k, histLenOf p' k = histLenOf p k + recsAdded k t) ∧
      (∀ k, countRec p' k t = countRec p k t + recsAdded k t) ∧
      (∀ k, k ≠ t.asset →
        (t.action = TransactionType.Convert →
          ∀ c, t.conversion_to = some c → k ≠ c.name) →
        getAccount p' k = getAccount p k) ∧
      (∀ k, containsKey p k = true → containsKey p' k = true) := by
  by_cases hact : t.action = TransactionType.Convert
  · -- Convert
    obtain ⟨c, hc⟩ : ∃ c, t.conversion_to = some c := by
      cases hcv : t.conversion_to with
      | none => exact absurd hcv (hcc hact)
      | some c => exact ⟨c, rfl⟩
    obtain ⟨d, s, hd, hs, heq⟩ := add_to_portfolio_convert p t c hact hc
    set P₁ := add_new_asset_to_portfolio (add_new_asset_to_portfolio p t.asset) c.name
      with hP₁def
    set d' := push_into_history { d with quantity := d.quantity + deltaAcct d.name t } t
      with hdpdef
    set p₂ := updateAccount P₁ c.name (fun _ => d') with hp₂def
    set b := push_into_history { s with quantity := s.quantity + deltaAcct s.name t } t
      with hbdef
    have hP₁name : KeysNamed P₁ := keysNamed_add_new (keysNamed_add_new hname _) _
    have hdname : d.name = c.name := name_of_getAccount hP₁name hd
    have hd'name : d'.name = c.name := hdname
    have hp₂name : KeysNamed p₂ := keysNamed_update_const hP₁name hd'name
    have hsname : s.name = t.asset := name_of_getAccount hp₂name hs
    have hbname : b.name = t.asset := hsname
    have hdelta_d : deltaAcct d.name t = c.quantity := by
      simp [deltaAcct, hact, hc, hdname]
    have hgd' : getAccount p₂ c.name = some d' := by
      rw [hp₂def, getAccount_update_self, hd]
      rfl
    have hgb : getAccount (updateAccount p₂ t.asset (fun _ => b)) t.asset = some b := by
      rw [getAccount_update_self, hs]
      rfl
    have hd'q : d'.quantity = d.quantity + c.quantity := by
      rw [hdpdef, push_into_history_quantity, hdelta_d]
    have hd'len : d'.history.length = d.history.length + 1 := by
      rw [hdpdef, push_into_history_length]
    have hd'cnt : d'.history.count t = d.history.count t + 1 := by
      rw [hdpdef, push_into_history_count]
    have hbq : b.quantity = s.quantity + deltaAcct s.name t := by
      rw [hbdef, push_into_history_quantity]
    have hblen : b.history.length = s.history.length + 1 := by
      rw [hbdef, push_into_history_length]
    have hbcnt : b.history.count t = s.history.count t + 1 := by
      rw [hbdef, push_into_history_count]
    -- where every key ends up
    have hGA : ∀ k, getAccount (updateAccount p₂ t.asset (fun _ => b)) k
        = if k = t.asset then some b
          else if k = c.name then some d'
          else getAccount p k := by
      intro k
      by_cases hka : k = t.asset
      · rw [if_pos hka, hka]
        exact hgb
      · rw [if_neg hka, getAccount_update_ne _ _ hka]
        by_cases hkc : k = c.name
        · rw [if_pos hkc, hkc]
          exact hgd'
        · rw [if_neg hkc, hp₂def, getAccount_update_ne _ _ hkc, hP₁def,
            getAccount_add_new_of_ne _ hkc, getAccount_add_new_of_ne _ hka]
    -- base values under p
    have hqd : qtyOf p c.name = d.quantity := by
      rw [← qtyOf_add_new p t.asset c.name,
        ← qtyOf_add_new (add_new_asset_to_portfolio p t.asset) c.name c.name]
      exact qtyOf_eq_of_getAccount hd
    have hld : histLenOf p c.name = d.history.length := by
      rw [← histLenOf_add_new p t.asset c.name,
        ← histLenOf_add_new (add_new_asset_to_portfolio p t.asset) c.name c.name]
      exact histLenOf_eq_of_getAccount hd
    have hcd : countRec p c.name t = d.history.count t := by
      rw [← countRec_add_new p t.asset c.name t,
        ← countRec_add_new (add_new_asset_to_portfolio p t.asset) c.name c.name t]
      exact countRec_eq_of_getAccount hd
    -- the source-side account s, by whether the conversion is degenerate
    by_cases hsc : t.asset = c.name
    · -- self-conversion: the primary lookup sees the already-updated account
      have hsd : s = d' := by
        have h2 := hs
        rw [hsc, hgd'] at h2
        exact (Option.some_injective _ h2).symm
      have hdelta_s : deltaAcct s.name t = c.quantity := by
        simp [deltaAcct, hact, hc, hsname, hsc]
      refine ⟨_, heq, keysNamed_update_const hp₂name hbname, ?_, ?_, ?_, ?_, ?_⟩
      · intro k
        rw [qtyOf, hGA k, effectOn_convert hc hact]
        by_cases hka : k = t.asset
        · rw [if_pos hka, if_pos (by rw [hka, hsc]), if_pos hka, if_pos (by rw [hka, hsc])]
          have : qtyOf p k = d.quantity := by rw [hka, hsc]; exact hqd
          simp only [Option.map_some', Option.getD_some]
          rw [hbq, hdelta_s, hsd, hd'q, this]
          ring
        · have hkc : ¬ k = c.name := by rw [← hsc]; exact hka
          rw [if_neg hka, if_neg hkc, if_neg hkc, if_neg hka]
          simp [qtyOf]
      · intro k
        rw [histLenOf, hGA k, recsAdded_convert hc hact]
        by_cases hka : k = t.asset
        · rw [if_pos hka, if_pos (by rw [hka, hsc]), if_pos hka]
          have : histLenOf p k = d.history.length := by rw [hka, hsc]; exact hld
          simp only [Option.map_some', Option.getD_some]
          rw [hblen, hsd, hd'len, this]
        · have hkc : ¬ k = c.name := by rw [← hsc]; exact hka
          rw [if_neg hka, if_neg hkc, if_neg hkc, if_neg hka]
          simp [histLenOf]
      · intro k
        rw [countRec, hGA k, recsAdded_convert hc hact]
        by_cases hka : k = t.asset
        · rw [if_pos hka, if_pos (by rw [hka, hsc]), if_pos hka]
          have : countRec p k t = d.history.count t := by rw [hka, hsc]; exact hcd
          simp only [Option.map_some', Option.getD_some]
          rw [hbcnt, hsd, hd'cnt, this]
        · have hkc : ¬ k = c.name := by rw [← hsc]; exact hka
          rw [if_neg hka, if_neg hkc, if_neg hkc, if_neg hka]
          simp [countRec]
      · intro k hka hkc
        rw [hGA k, if_neg hka, if_neg (hkc hact c hc)]
      · intro k hk
        rw [containsKey_update, hp₂def, containsKey_update, hP₁def, containsKey_add_new,
          containsKey_add_new, hk]
        simp
    · -- distinct source and destination
      have hgs : getAccount P₁ t.asset = some s := by
        have h2 := hs
        rw [hp₂def, getAccount_update_ne _ _ hsc] at h2
        exact h2
      have hqs : qtyOf p t.asset = s.quantity := by
        rw [← qtyOf_add_new p t.asset t.asset,
          ← qtyOf_add_new (add_new_asset_to_portfolio p t.asset) c.name t.asset]
        exact qtyOf_eq_of_getAccount hgs
      have hls : histLenOf p t.asset = s.history.length := by
        rw [← histLenOf_add_new p t.asset t.asset,
          ← histLenOf_add_new (add_new_asset_to_portfolio p t.asset) c.name t.asset]
        exact histLenOf_eq_of_getAccount hgs
      have hcs : countRec p t.asset t = s.history.count t := by
        rw [← countRec_add_new p t.asset t.asset t,
          ← countRec_add_new (add_new_asset_to_portfolio p t.asset) c.name t.asset t]
        exact countRec_eq_of_getAccount hgs
      have hdelta_s : deltaAcct s.name t = -t.quantity := by
        simp [deltaAcct, hact, hc, hsname, hsc]
      refine ⟨_, heq, keysNamed_update_const hp₂name hbname, ?_, ?_, ?_, ?_, ?_⟩
      · intro k
        rw [qtyOf, hGA k, effectOn_convert hc hact]
        by_cases hka : k = t.asset
        · have hkc : ¬ k = c.name := by rw [hka]; exact hsc
          rw [if_pos hka, if_neg hkc, if_pos hka, if_neg hkc]
          have : qtyOf p k = s.quantity := by rw [hka]; exact hqs
          simp only [Option.map_some', Option.getD_some]
          rw [hbq, hdelta_s, this]
          ring
        · by_cases hkc : k = c.name
          · rw [if_neg hka, if_pos hkc, if_pos hkc, if_neg hka]
            have : qtyOf p k = d.quantity := by rw [hkc]; exact hqd
            simp only [Option.map_some', Option.getD_some]
            rw [hd'q, this]
            ring
          · rw [if_neg hka, if_neg hkc, if_neg hkc, if_neg hka]
            simp [qtyOf]
      · intro k
        rw [histLenOf, hGA k, recsAdded_convert hc hact]
        by_cases hka : k = t.asset
        · have hkc : ¬ k = c.name := by rw [hka]; exact hsc
          rw [if_pos hka, if_neg hkc, if_pos hka]
          have : histLenOf p k = s.history.length := by rw [hka]; exact hls
          simp only [Option.map_some', Option.getD_some]
          rw [hblen, this]
        · by_cases hkc : k = c.name
          · rw [if_neg hka, if_pos hkc, if_pos hkc, if_neg hka]
            have : histLenOf p k = d.history.length := by rw [hkc]; exact hld
            simp only [Option.map_some', Option.getD_some]
            rw [hd'len, this]
          · rw [if_neg hka, if_neg hkc, if_neg hkc, if_neg hka]
            simp [histLenOf]
      · intro k
        rw [countRec, hGA k, recsAdded_convert hc hact]
        by_cases hka : k = t.asset
        · have hkc : ¬ k = c.name := by rw [hka]; exact hsc
          rw [if_pos hka, if_neg hkc, if_pos hka]
          have : countRec p k t = s.history.count t := by rw [hka]; exact hcs
          simp only [Option.map_some', Option.getD_some]
          rw [hbcnt, this]
        · by_cases hkc : k = c.name
          · rw [if_neg hka, if_pos hkc, if_pos hkc, if_neg hka]
            have : countRec p k t = d.history.count t := by rw [hkc]; exact hcd
            simp only [Option.map_some', Option.getD_some]
            rw [hd'cnt, this]
          · rw [if_neg hka, if_neg hkc, if_neg hkc, if_neg hka]
            simp [countRec]
      · intro k hka hkc
        rw [hGA k, if_neg hka, if_neg (hkc hact c hc)]
      · intro k hk
        rw [containsKey_update, hp₂def, containsKey_update, hP₁def, containsKey_add_new,
          containsKey_add_new, hk]
        simp
  · -- not Convert
    obtain ⟨a, ha, heq⟩ := add_to_portfolio_not_convert p t hact
    set P₁ := add_new_asset_to_portfolio p t.asset with hP₁def
    set b := push_into_history { a with quantity := a.quantity + deltaAcct a.name t } t
      with hbdef
    have hP₁name : KeysNamed P₁ := keysNamed_add_new hname _
    have haname : a.name = t.asset := name_of_getAccount hP₁name ha
    have hbname : b.name = t.asset := haname
    have hGA : ∀ k, getAccount (updateAccount P₁ t.asset (fun _ => b)) k
        = if k = t.asset then some b else getAccount p k := by
      intro k
      by_cases hka : k = t.asset
      · rw [if_pos hka, hka, getAccount_update_self, ha]
        rfl
      · rw [if_neg hka, getAccount_update_ne _ _ hka, hP₁def,
          getAccount_add_new_of_ne _ hka]
    have hbq : b.quantity = a.quantity + deltaAcct a.name t := by
      rw [hbdef, push_into_history_quantity]
    have hblen : b.history.length = a.history.length + 1 := by
      rw [hbdef, push_into_history_length]
    have hbcnt : b.history.count t = a.history.count t + 1 := by
      rw [hbdef, push_into_history_count]
    have hqa : qtyOf p t.asset = a.quantity := by
      rw [← qtyOf_add_new p t.asset t.asset]
      exact qtyOf_eq_of_getAccount ha
    have hla : histLenOf p t.asset = a.history.length := by
      rw [← histLenOf_add_new p t.asset t.asset]
      exact histLenOf_eq_of_getAccount ha
    have hca : countRec p t.asset t = a.history.count t := by
      rw [← countRec_add_new p t.asset t.asset t]
      exact countRec_eq_of_getAccount ha
    refine ⟨_, heq, keysNamed_update_const hP₁name hbname, ?_, ?_, ?_, ?_, ?_⟩
    · intro k
      rw [qtyOf, hGA k, effectOn_of_not_convert hact]
      by_cases hka : k = t.asset
      · rw [if_pos hka, if_pos hka]
        have : qtyOf p k = a.quantity := by rw [hka]; exact hqa
        simp only [Option.map_some', Option.getD_some]
        rw [hbq, this, deltaAcct_eq_of_not_convert hact a.name k]
      · rw [if_neg hka, if_neg hka]
        simp [qtyOf]
    · intro k
      rw [histLenOf, hGA k, recsAdded_of_not_convert hact]
      by_cases hka : k = t.asset
      · rw [if_pos hka, if_pos hka]
        have : histLenOf p k = a.history.length := by rw [hka]; exact hla
        simp only [Option.map_some', Option.getD_some]
        rw [hblen, this]
      · rw [if_neg hka, if_neg hka]
        simp [histLenOf]
    · intro k
      rw [countRec, hGA k, recsAdded_of_not_convert hact]
      by_cases hka : k = t.asset
      · rw [if_pos hka, if_pos hka]
        have : countRec p k t = a.history.count t := by rw [hka]; exact hca
        simp only [Option.map_some', Option.getD_some]
        rw [hbcnt, this]
      · rw [if_neg hka, if_neg hka]
        simp [countRec]
    · intro k hka _
      rw [hGA k, if_neg hka]
    · intro k hk
      rw [containsKey_update, hP₁def, containsKey_add_new, hk]
      simp

/-- A `Convert` transaction with no `conversion_to` hits `unwrap` and
panics. -/
theorem add_to_portfolio_panic {t : Transaction} (p : Portfolio)
    (hact : t.action = TransactionType.Convert) (hc : t.conversion_to = none) :
    add_to_portfolio p t = none := by
  unfold add_to_portfolio
  rw [if_pos hact, hc]

/-- Accumulation over a stream: a successful run adds, per key, the sum of
the per-transaction effects, in arrival order. -/
theorem applyAll_effects (ts : List Transaction) :
    ∀ p p', KeysNamed p → applyAll p ts = some (.ok p') →
      KeysNamed p' ∧ (∀ k, qtyOf p' k = qtyOf p k + (ts.map (effectOn k)).sum) := by
  induction ts with
  | nil =>
      intro p p' hn h
      unfold applyAll at h
      simp only [Option.some.injEq, Except.ok.injEq] at h
      subst h
      exact ⟨hn, fun k => by simp⟩
  | cons t ts ih =>
      intro p p' hn h
      unfold applyAll at h
      cases hstep : add_to_portfolio p t with
      | none => rw [hstep] at h; simp at h
      | some r =>
          cases r with
          | error e => rw [hstep] at h; simp at h
          | ok q =>
              rw [hstep] at h
              have hcc : t.action = TransactionType.Convert → t.conversion_to ≠ none := by
                intro ha hcv
                rw [add_to_portfolio_panic p ha hcv] at hstep
                simp at hstep
              obtain ⟨p'', heq, hn'', hq, _, _, _, _⟩ := add_to_portfolio_effects p t hn hcc
              rw [hstep] at heq
              simp only [Option.some.injEq, Except.ok.injEq] at heq
              subst heq
              obtain ⟨hn', hsum⟩ := ih q p' hn'' h
              refine ⟨hn', fun k => ?_⟩
              rw [hsum k, hq k, List.map_cons, List.sum_cons]
              ring

/-! ## Concrete transactions and ledgers used in witnesses and
counterexamples -/

/-- The Buy of the spec's concrete scenario (§8). -/
def btcBuy : Transaction :=
  { timestamp := 1516678811000, action := .Buy, asset := "BTC", quantity := 0.000919,
    price := 10, conversion_to := none }

/-- The Sell of the spec's concrete scenario (§8). -/
def btcSell : Transaction :=
  { timestamp := 1516700000000, action := .Sell, asset := "BTC", quantity := 0.0005,
    price := 10, conversion_to := none }

/-- The ledger produced by applying `btcBuy` then `btcSell` to the empty
ledger. -/
def btcResultP : Portfolio :=
  [("BTC", { name := "BTC", history := [btcBuy, btcSell],
             quantity := ((0 : ℚ) + 0.000919) - 0.0005 })]

/-- The Convert of the spec's concrete conversion scenario (§8). -/
def xlmConvert : Transaction :=
  { timestamp := 1612070447000, action := .Convert, asset := "XLM",
    quantity := 1641.4065951, price := 0.31,
    conversion_to := some { name := "ALGO", quantity := 774.762752 } }

/-- The ledger produced by applying `xlmConvert` to the empty ledger. -/
def xlmResult : Portfolio :=
  [("XLM", { name := "XLM", history := [xlmConvert],
             quantity := (0 : ℚ) - 1641.4065951 }),
   ("ALGO", { name := "ALGO", history := [xlmConvert],
              quantity := (0 : ℚ) + 774.762752 })]

/-- A self-conversion: source and destination are both `"BTC"`. -/
def selfConvert : Transaction :=
  { timestamp := 100, action := .Convert, asset := "BTC", quantity := 7, price := 1,
    conversion_to := some { name := "BTC", quantity := 5 } }

/-- The ledger produced by applying `selfConvert` to the empty ledger: the
destination credit is applied twice and the record inserted twice. -/
def selfResult : Portfolio :=
  [("BTC", { name := "BTC", history := [selfConvert, selfConvert],
             quantity := ((0 : ℚ) + 5) + 5 })]

/-- A one-account starting ledger for the frame-property witness. -/
def dogeStart : Portfolio := [("DOGE", blankAccount "DOGE")]

/-- `dogeStart` after applying `xlmConvert`. -/
def dogeResult : Portfolio :=
  [("DOGE", blankAccount "DOGE"),
   ("XLM", { name := "XLM", history := [xlmConvert],
             quantity := (0 : ℚ) - 1641.4065951 }),
   ("ALGO", { name := "ALGO", history := [xlmConvert],
              quantity := (0 : ℚ) + 774.762752 })]

/-- Modelled from the spec: the per-transaction signed effect table of §4.2
exactly as claim C4 states it — Buy/Income `+quantity`, Sell `-quantity`,
Convert destination `+conversion_to.quantity`, Convert source with distinct
names `-quantity` (so a self-conversion is credited once). -/
def specEffectOn (k : String) (t : Transaction) : ℚ :=
  match t.action with
  | .Buy => if k = t.asset then t.quantity else 0
  | .Sell => if k = t.asset then -t.quantity else 0
  | .Income => if k = t.asset then t.quantity else 0
  | .Convert =>
      match t.conversion_to with
      | none => 0
      | some c =>
          (if k = c.name then c.quantity else 0) +
          (if k = t.asset ∧ k ≠ c.name then -t.quantity else 0)

/-! ## Claim theorems -/

/-- C1 (counterexample): applying the self-conversion `selfConvert`
(`conversion_to.quantity = 5`) to the empty ledger leaves the account with
quantity `10`, not `5`, and two history records, not one: the destination
credit is applied twice (once by the Convert branch, once by the primary
update), so the claim's "+conversion_to.quantity … applied exactly once, not
doubled" is false at this input. -/
theorem spec_c1_counterexample :
    add_to_portfolio portfolioEmpty selfConvert = some (.ok selfResult) ∧
    qtyOf selfResult "BTC" = 10 ∧ (10 : ℚ) ≠ 5 ∧
    histLenOf selfResult "BTC" = 2 ∧ (2 : ℕ) ≠ 1 := by
  refine ⟨?_, ?_, by norm_num, ?_, by norm_num⟩
  · simp [add_to_portfolio, add_new_asset_to_portfolio, containsKey, getAccount,
      applyPrimary, updateAccount, add_transaction_to_asset, push_into_history,
      binarySearchPos, binarySearchGo, portfolioEmpty, selfConvert, selfResult,
      List.insertIdx]
  · norm_num [qtyOf, getAccount, selfResult]
  · norm_num [histLenOf, getAccount, selfResult]

/-- C1 (amended): a Convert transaction with `asset == conversion_to.name`
updates only that single account, but changes its quantity by
`+2 * conversion_to.quantity` and inserts the record twice — once by the
destination pass and once by the source pass, whose name check again selects
the credit branch (the source-side decrement is never applied). -/
theorem spec_c1_amended (p p' : Portfolio) (t : Transaction) (c : CoinConversion)
    (k : String) (hname : KeysNamed p) (hact : t.action = TransactionType.Convert)
    (hc : t.conversion_to = some c) (hself : t.asset = c.name) (hk : k ≠ c.name)
    (hstep : add_to_portfolio p t = some (.ok p')) :
    qtyOf p' c.name = qtyOf p c.name + 2 * c.quantity ∧
    histLenOf p' c.name = histLenOf p c.name + 2 ∧
    countRec p' c.name t = countRec p c.name t + 2 ∧
    getAccount p' k = getAccount p k := by
  obtain ⟨p'', heq, _, hq, hl, hcnt, hframe, _⟩ :=
    add_to_portfolio_effects p t hname (fun _ => by rw [hc]; simp)
  rw [hstep] at heq
  simp only [Option.some.injEq, Except.ok.injEq] at heq
  subst heq
  have e1 : effectOn c.name t = c.quantity + c.quantity := by
    rw [effectOn_convert hc hact, ← hself]
    simp
  have e2 : recsAdded c.name t = 2 := by
    rw [recsAdded_convert hc hact, ← hself]
    simp
  refine ⟨?_, ?_, ?_, ?_⟩
  · rw [hq c.name, e1]; ring
  · rw [hl c.name, e2]
  · rw [hcnt c.name, e2]
  · exact hframe k (fun h => hk (h ▸ hself ▸ rfl))
      (fun _ c2 hc2 => by
        rw [hc] at hc2
        injection hc2 with h2
        rw [← h2]
        exact hk)

/-- C1 (witness for the amended theorem): the amended statement evaluated on
`selfConvert` against the empty ledger. -/
theorem spec_c1_witness :
    qtyOf selfResult "BTC" = qtyOf portfolioEmpty "BTC" + 2 * 5 ∧
    histLenOf selfResult "BTC" = histLenOf portfolioEmpty "BTC" + 2 ∧
    countRec selfResult "BTC" selfConvert = countRec portfolioEmpty "BTC" selfConvert + 2 ∧
    getAccount selfResult "ETH" = getAccount portfolioEmpty "ETH" :=
  spec_c1_amended portfolioEmpty selfResult selfConvert
    { name := "BTC", quantity := 5 } "ETH" keysNamed_nil rfl rfl rfl (by decide)
    (by simp [add_to_portfolio, add_new_asset_to_portfolio, containsKey, getAccount,
      applyPrimary, updateAccount, add_transaction_to_asset, push_into_history,
      binarySearchPos, binarySearchGo, portfolioEmpty, selfConvert, selfResult,
      List.insertIdx])

/-- C2: a Convert with distinct source and destination credits the
destination by `conversion_to.quantity`, debits the source by
`transaction.quantity`, and inserts the record once into each of the two
histories. -/
theorem spec_c2 (p p' : Portfolio) (t : Transaction) (c : CoinConversion)
    (hname : KeysNamed p) (hact : t.action = TransactionType.Convert)
    (hc : t.conversion_to = some c) (hne : t.asset ≠ c.name)
    (hstep : add_to_portfolio p t = some (.ok p')) :
    qtyOf p' c.name = qtyOf p c.name + c.quantity ∧
    qtyOf p' t.asset = qtyOf p t.asset - t.quantity ∧
    histLenOf p' c.name = histLenOf p c.name + 1 ∧
    histLenOf p' t.asset = histLenOf p t.asset + 1 ∧
    countRec p' c.name t = countRec p c.name t + 1 ∧
    countRec p' t.asset t = countRec p t.asset t + 1 := by
  obtain ⟨p'', heq, _, hq, hl, hcnt, _, _⟩ :=
    add_to_portfolio_effects p t hname (fun _ => by rw [hc]; simp)
  rw [hstep] at heq
  simp only [Option.some.injEq, Except.ok.injEq] at heq
  subst heq
  have e1 : effectOn c.name t = c.quantity := by
    rw [effectOn_convert hc hact]
    simp [Ne.symm hne]
  have e2 : effectOn t.asset t = -t.quantity := by
    rw [effectOn_convert hc hact]
    simp [hne]
  have e3 : recsAdded c.name t = 1 := by
    rw [recsAdded_convert hc hact]
    simp [Ne.symm hne]
  have e4 : recsAdded t.asset t = 1 := by
    rw [recsAdded_convert hc hact]
    simp [hne]
  exact ⟨by rw [hq c.name, e1], by rw [hq t.asset, e2]; ring,
    by rw [hl c.name, e3], by rw [hl t.asset, e4],
    by rw [hcnt c.name, e3], by rw [hcnt t.asset, e4]⟩

/-- C2 (witness): the spec's concrete conversion scenario — `xlmConvert`
against the empty ledger yields `XLM = 0 - 1641.4065951`,
`ALGO = 0 + 774.762752`, one record in each history. -/
theorem spec_c2_witness :
    qtyOf xlmResult "ALGO" = qtyOf portfolioEmpty "ALGO" + 774.762752 ∧
    qtyOf xlmResult "XLM" = qtyOf portfolioEmpty "XLM" - 1641.4065951 ∧
    histLenOf xlmResult "ALGO" = histLenOf portfolioEmpty "ALGO" + 1 ∧
    histLenOf xlmResult "XLM" = histLenOf portfolioEmpty "XLM" + 1 ∧
    countRec xlmResult "ALGO" xlmConvert = countRec portfolioEmpty "ALGO" xlmConvert + 1 ∧
    countRec xlmResult "XLM" xlmConvert = countRec portfolioEmpty "XLM" xlmConvert + 1 :=
  spec_c2 portfolioEmpty xlmResult xlmConvert
    { name := "ALGO", quantity := 774.762752 } keysNamed_nil rfl rfl (by decide)
    (by simp [add_to_portfolio, add_new_asset_to_portfolio, containsKey, getAccount,
      applyPrimary, updateAccount, add_transaction_to_asset, push_into_history,
      binarySearchPos, binarySearchGo, portfolioEmpty, xlmConvert, xlmResult,
      List.insertIdx])

/-- C4 (counterexample): the claim's §4.2 effect table predicts `+5` for the
self-conversion `selfConvert` (destination credit once), but the code leaves
the account at `10`: arrival-order cumulative sums of the claimed per-
transaction effects do not reproduce the implementation on self-conversions. -/
theorem spec_c4_counterexample :
    applyAll portfolioEmpty [selfConvert] = some (.ok selfResult) ∧
    qtyOf selfResult "BTC" = 10 ∧
    ([selfConvert].map (specEffectOn "BTC")).sum = 5 ∧
    (10 : ℚ) ≠ 5 := by
  refine ⟨?_, ?_, ?_, by norm_num⟩
  · simp [applyAll, add_to_portfolio, add_new_asset_to_portfolio, containsKey, getAccount,
      applyPrimary, updateAccount, add_transaction_to_asset, push_into_history,
      binarySearchPos, binarySearchGo, portfolioEmpty, selfConvert, selfResult,
      List.insertIdx]
  · norm_num [qtyOf, getAccount, selfResult]
  · norm_num [specEffectOn, selfConvert]

/-- C4 (amended): after any successful run from the empty ledger, each key's
quantity equals the arrival-order cumulative sum of the implemented
per-transaction effects (`effectOn`), which match the claim's §4.2 table
except that a self-conversion receives the destination credit twice;
the sum is independent of where history insertion placed each record. -/
theorem spec_c4_amended (ts : List Transaction) (p : Portfolio) (k : String)
    (h : applyAll portfolioEmpty ts = some (.ok p)) :
    qtyOf p k = (ts.map (effectOn k)).sum := by
  obtain ⟨_, hsum⟩ := applyAll_effects ts portfolioEmpty p keysNamed_nil h
  have h2 := hsum k
  simpa [qtyOf, getAccount, portfolioEmpty] using h2

/-- C4 (witness for the amended theorem): the Buy/Sell scenario evaluated. -/
theorem spec_c4_witness :
    qtyOf btcResultP "BTC" = ([btcBuy, btcSell].map (effectOn "BTC")).sum :=
  spec_c4_amended [btcBuy, btcSell] btcResultP "BTC"
    (by simp [applyAll, add_to_portfolio, add_new_asset_to_portfolio, containsKey,
      getAccount, applyPrimary, updateAccount, add_transaction_to_asset,
      push_into_history, binarySearchPos, binarySearchGo, portfolioEmpty, btcBuy,
      btcSell, btcResultP, List.insertIdx])

/-- C5: `add_new_asset_to_portfolio` is idempotent — a first call for an
unseen id appends exactly one account with quantity 0 and empty history, and
a subsequent call for the same id returns the ledger unchanged. -/
theorem spec_c5 (p : Portfolio) (a : String) (h : containsKey p a = false) :
    add_new_asset_to_portfolio p a = p ++ [(a, blankAccount a)] ∧
    containsKey (add_new_asset_to_portfolio p a) a = true ∧
    add_new_asset_to_portfolio (add_new_asset_to_portfolio p a) a
      = add_new_asset_to_portfolio p a := by
  have h1 := add_new_of_not_contains h
  have h2 : containsKey (add_new_asset_to_portfolio p a) a = true := by
    rw [containsKey_add_new]
    simp
  exact ⟨h1, h2, add_new_of_contains h2⟩

/-- C5 (witness): lazy creation of `"BTC"` in the empty ledger. -/
theorem spec_c5_witness :
    add_new_asset_to_portfolio portfolioEmpty "BTC"
      = portfolioEmpty ++ [("BTC", blankAccount "BTC")] ∧
    containsKey (add_new_asset_to_portfolio portfolioEmpty "BTC") "BTC" = true ∧
    add_new_asset_to_portfolio (add_new_asset_to_portfolio portfolioEmpty "BTC") "BTC"
      = add_new_asset_to_portfolio portfolioEmpty "BTC" :=
  spec_c5 portfolioEmpty "BTC" rfl

/-- C6: under the caller contract (`Convert` implies `conversion_to` present)
`add_to_portfolio` always returns `Ok` — the `HistoryAccessError` branches
are unreachable because `ensure_account` precedes every lookup. -/
theorem spec_c6 (p : Portfolio) (t : Transaction)
    (hcc : t.action = TransactionType.Convert → t.conversion_to ≠ none) :
    isOk (add_to_portfolio p t) = true := by
  by_cases hact : t.action = TransactionType.Convert
  · obtain ⟨c, hc⟩ : ∃ c, t.conversion_to = some c := by
      cases hcv : t.conversion_to with
      | none => exact absurd hcv (hcc hact)
      | some c => exact ⟨c, rfl⟩
    obtain ⟨d, s, _, _, heq⟩ := add_to_portfolio_convert p t c hact hc
    rw [heq]
    rfl
  · obtain ⟨a, _, heq⟩ := add_to_portfolio_not_convert p t hact
    rw [heq]
    rfl

/-- C6 (witness): the concrete Convert succeeds on the empty ledger. -/
theorem spec_c6_witness : isOk (add_to_portfolio portfolioEmpty xlmConvert) = true :=
  spec_c6 portfolioEmpty xlmConvert (fun _ => by simp [xlmConvert])

/-- C7: the spec's concrete scenario — Buy 0.000919 then Sell 0.0005 of BTC
yields quantity exactly 0.000419 (exact in `f32` as well: both operands and
the result are the nearest `f32` values of these decimals and the subtraction
is exact), history length 2 and timestamps in ascending order. -/
theorem spec_c7 :
    applyAll portfolioEmpty [btcBuy, btcSell] = some (.ok btcResultP) ∧
    qtyOf btcResultP "BTC" = 0.000419 ∧
    histLenOf btcResultP "BTC" = 2 ∧
    timestampsOf btcResultP "BTC" = [1516678811000, 1516700000000] := by
  refine ⟨?_, ?_, ?_, ?_⟩
  · simp [applyAll, add_to_portfolio, add_new_asset_to_portfolio, containsKey, getAccount,
      applyPrimary, updateAccount, add_transaction_to_asset, push_into_history,
      binarySearchPos, binarySearchGo, portfolioEmpty, btcBuy, btcSell, btcResultP,
      List.insertIdx]
  · norm_num [qtyOf, getAccount, btcResultP]
  · norm_num [histLenOf, getAccount, btcResultP]
  · simp [timestampsOf, getAccount, btcResultP, btcBuy, btcSell]

/-- C9 (frame): a successful `add_to_portfolio` leaves every account other
than the primary asset's and (for Convert) the destination's untouched, and
never removes a key present before the call. -/
theorem spec_c9 (p p' : Portfolio) (t : Transaction) (k k₂ : String)
    (hstep : add_to_portfolio p t = some (.ok p'))
    (hka : k ≠ t.asset)
    (hkc : t.action = TransactionType.Convert →
      ∀ c, t.conversion_to = some c → k ≠ c.name)
    (hk₂ : containsKey p k₂ = true) :
    getAccount p' k = getAccount p k ∧ containsKey p' k₂ = true := by
  by_cases hact : t.action = TransactionType.Convert
  · obtain ⟨c, hc⟩ : ∃ c, t.conversion_to = some c := by
      cases hcv : t.conversion_to with
      | none => rw [add_to_portfolio_panic p hact hcv] at hstep; simp at hstep
      | some c => exact ⟨c, rfl⟩
    obtain ⟨d, s, hd, hs, heq⟩ := add_to_portfolio_convert p t c hact hc
    rw [hstep] at heq
    simp only [Option.some.injEq, Except.ok.injEq] at heq
    subst heq
    have hkc' : k ≠ c.name := hkc hact c hc
    constructor
    · rw [getAccount_update_ne _ _ hka, getAccount_update_ne _ _ hkc',
        getAccount_add_new_of_ne _ hkc', getAccount_add_new_of_ne _ hka]
    · rw [containsKey_update, containsKey_update, containsKey_add_new,
        containsKey_add_new, hk₂]
      simp
  · obtain ⟨a, ha, heq⟩ := add_to_portfolio_not_convert p t hact
    rw [hstep] at heq
    simp only [Option.some.injEq, Except.ok.injEq] at heq
    subst heq
    constructor
    · rw [getAccount_update_ne _ _ hka, getAccount_add_new_of_ne _ hka]
    · rw [containsKey_update, containsKey_add_new, hk₂]
      simp

/-- C9 (witness): applying `xlmConvert` to a ledger holding a `"DOGE"`
account leaves `"BTC"` absent-and-unchanged and keeps the `"DOGE"` key. -/
theorem spec_c9_witness :
    getAccount dogeResult "BTC" = getAccount dogeStart "BTC" ∧
    containsKey dogeResult "DOGE" = true :=
  spec_c9 dogeStart dogeResult xlmConvert "BTC" "DOGE"
    (by simp [add_to_portfolio, add_new_asset_to_portfolio, containsKey, getAccount,
      applyPrimary, updateAccount, add_transaction_to_asset, push_into_history,
      binarySearchPos, binarySearchGo, dogeStart, dogeResult, xlmConvert, blankAccount,
      List.insertIdx])
    (by decide)
    (fun _ c hc => by
      injection hc with h
      rw [← h]
      decide)
    (by decide)

/-! ## The history-ordering invariant -/

/-- A history is sorted by timestamp, non-decreasing. -/
def SortedByTs (l : List Transaction) : Prop :=
  l.Pairwise (fun a b => a.timestamp ≤ b.timestamp)

/-- Every account history in the ledger is sorted by timestamp. -/
def PortfolioSorted (p : Portfolio) : Prop :=
  ∀ e ∈ p, SortedByTs e.2.history

theorem sortedByTs_mono {xs : List Transaction} (hs : SortedByTs xs) :
    ∀ i j (hi : i < xs.length) (hj : j < xs.length), i ≤ j →
      (xs.get ⟨i, hi⟩).timestamp ≤ (xs.get ⟨j, hj⟩).timestamp := by
  intro i j hi hj hij
  rcases Nat.lt_or_ge i j with h | h
  · exact List.pairwise_iff_get.mp hs ⟨i, hi⟩ ⟨j, hj⟩ h
  · have hij2 : i = j := le_antisymm hij h
    subst hij2
    exact le_refl _

theorem binarySearchGo_spec (xs : List Transaction) (t : Transaction) (hs : SortedByTs xs) :
    ∀ n left right, right - left = n → left ≤ right → right ≤ xs.length →
      (∀ i (hi : i < xs.length), i < left →
        (xs.get ⟨i, hi⟩).timestamp < t.timestamp) →
      (∀ i (hi : i < xs.length), right ≤ i →
        t.timestamp < (xs.get ⟨i, hi⟩).timestamp) →
      (∀ i (hi : i < xs.length), i < binarySearchGo xs t left right →
        (xs.get ⟨i, hi⟩).timestamp ≤ t.timestamp) ∧
      (∀ i (hi : i < xs.length), binarySearchGo xs t left right ≤ i →
        t.timestamp ≤ (xs.get ⟨i, hi⟩).timestamp) := by
  intro n
  induction n using Nat.strong_induction_on with
  | _ n ih =>
    intro left right hn hlr hrlen hlt hgt
    rw [binarySearchGo]
    split
    · rename_i hltr
      dsimp only
      have hmidlt : left + (right - left) / 2 < xs.length := by omega
      have hmid_eq : xs.getD (left + (right - left) / 2) default
          = xs.get ⟨left + (right - left) / 2, hmidlt⟩ := by
        rw [List.getD_eq_getElem xs default hmidlt, List.get_eq_getElem]
      rw [hmid_eq]
      split
      · rename_i hxlt
        refine ih (right - (left + (right - left) / 2 + 1)) (by omega) _ _ rfl (by omega)
          hrlen ?_ hgt
        intro i hi hilt
        have h2 := sortedByTs_mono hs i (left + (right - left) / 2) hi hmidlt (by omega)
        exact lt_of_le_of_lt h2 hxlt
      · split
        · rename_i hxgt
          refine ih ((left + (right - left) / 2) - left) (by omega) _ _ rfl (by omega)
            (by omega) hlt ?_
          intro i hi hige
          have h2 := sortedByTs_mono hs (left + (right - left) / 2) i hmidlt hi hige
          exact lt_of_lt_of_le hxgt h2
        · rename_i hxnlt hxngt
          have hxeq : (xs.get ⟨left + (right - left) / 2, hmidlt⟩).timestamp
              = t.timestamp :=
            le_antisymm (not_lt.mp hxngt) (not_lt.mp hxnlt)
          constructor
          · intro i hi hlt2
            have h2 := sortedByTs_mono hs i (left + (right - left) / 2) hi hmidlt
              (by omega)
            rw [hxeq] at h2
            exact h2
          · intro i hi hge2
            have h2 := sortedByTs_mono hs (left + (right - left) / 2) i hmidlt hi hge2
            rw [hxeq] at h2
            exact h2
    · constructor
      · intro i hi h2
        exact le_of_lt (hlt i hi h2)
      · intro i hi h2
        exact le_of_lt (hgt i hi (by omega))

theorem binarySearchPos_spec (xs : List Transaction) (t : Transaction)
    (hs : SortedByTs xs) :
    (∀ i (hi : i < xs.length), i < binarySearchPos xs t →
      (xs.get ⟨i, hi⟩).timestamp ≤ t.timestamp) ∧
    (∀ i (hi : i < xs.length), binarySearchPos xs t ≤ i →
      t.timestamp ≤ (xs.get ⟨i, hi⟩).timestamp) :=
  binarySearchGo_spec xs t hs xs.length 0 xs.length rfl (Nat.zero_le _) (le_refl _)
    (fun i _ h => absurd h (Nat.not_lt_zero i))
    (fun i hi h => absurd hi (not_lt.mpr h))

theorem forall_mem_take {α : Type} {P : α → Prop} {l : List α} {n : ℕ}
    (hp : ∀ i (hi : i < l.length), i < n → P (l.get ⟨i, hi⟩)) :
    ∀ b ∈ l.take n, P b := by
  intro b hb
  obtain ⟨⟨i, hi⟩, hget⟩ := List.mem_iff_get.mp hb
  have hi3 := hi
  rw [List.length_take] at hi3
  have hi2 : i < l.length := by omega
  have hin : i < n := by omega
  have hge : (l.take n).get ⟨i, hi⟩ = l.get ⟨i, hi2⟩ := by
    rw [List.get_eq_getElem, List.get_eq_getElem]
    exact List.getElem_take l
  rw [← hget, hge]
  exact hp i hi2 hin

theorem forall_mem_drop {α : Type} {P : α → Prop} {l : List α} {n : ℕ}
    (hp : ∀ i (hi : i < l.length), n ≤ i → P (l.get ⟨i, hi⟩)) :
    ∀ b ∈ l.drop n, P b := by
  intro b hb
  obtain ⟨⟨i, hi⟩, hget⟩ := List.mem_iff_get.mp hb
  have hi3 := hi
  rw [List.length_drop] at hi3
  have hi2 : n + i < l.length := by omega
  have hge : (l.drop n).get ⟨i, hi⟩ = l.get ⟨n + i, hi2⟩ := by
    rw [List.get_eq_getElem, List.get_eq_getElem]
    exact List.getElem_drop l
  rw [← hget, hge]
  exact hp (n + i) hi2 (by omega)

theorem mem_of_mem_insertIdx {α : Type} {x b : α} :
    ∀ {n : ℕ} {l : List α}, b ∈ l.insertIdx n x → b = x ∨ b ∈ l
  | 0, l, h => by
      rw [List.insertIdx_zero] at h
      exact List.mem_cons.mp h
  | n + 1, [], h => by
      rw [List.insertIdx_succ_nil] at h
      simp at h
  | n + 1, a :: l, h => by
      rw [List.insertIdx_succ_cons] at h
      rcases List.mem_cons.mp h with h2 | h2
      · exact Or.inr (h2 ▸ List.mem_cons_self a l)
      · rcases mem_of_mem_insertIdx h2 with h3 | h3
        · exact Or.inl h3
        · exact Or.inr (List.mem_cons_of_mem a h3)

theorem pairwise_insertIdx {α : Type} {R : α → α → Prop} (x : α) :
    ∀ (n : ℕ) (l : List α), l.Pairwise R →
      (∀ b ∈ l.take n, R b x) → (∀ b ∈ l.drop n, R x b) →
      (l.insertIdx n x).Pairwise R
  | 0, l, hp, _, h2 => by
      rw [List.insertIdx_zero]
      exact List.Pairwise.cons (by simpa using h2) hp
  | n + 1, [], hp, _, _ => by
      rw [List.insertIdx_succ_nil]
      exact hp
  | n + 1, a :: l, hp, h1, h2 => by
      rw [List.insertIdx_succ_cons]
      rcases List.pairwise_cons.mp hp with ⟨hal, hl⟩
      refine List.Pairwise.cons ?_ (pairwise_insertIdx x n l hl ?_ ?_)
      · intro b hb
        rcases mem_of_mem_insertIdx hb with rfl | hbl
        · exact h1 a (by simp)
        · exact hal b hbl
      · intro b hb
        refine h1 b ?_
        rw [List.take_succ_cons]
        exact List.mem_cons_of_mem a hb
      · intro b hb
        refine h2 b ?_
        rw [List.drop_succ_cons]
        exact hb

theorem sortedByTs_insertIdx {l : List Transaction} (t : Transaction)
    (hs : SortedByTs l) :
    SortedByTs (l.insertIdx (binarySearchPos l t) t) := by
  obtain ⟨h1, h2⟩ := binarySearchPos_spec l t hs
  exact pairwise_insertIdx t (binarySearchPos l t) l hs
    (forall_mem_take h1) (forall_mem_drop h2)

theorem push_into_history_sorted {a : AssetHistory} {t : Transaction}
    (h : SortedByTs a.history) : SortedByTs (push_into_history a t).history := by
  rw [push_into_history_history]
  exact sortedByTs_insertIdx t h

theorem portfolioSorted_nil : PortfolioSorted portfolioEmpty := by
  intro e he
  simp [portfolioEmpty] at he

theorem sortedHist_of_getAccount {p : Portfolio} {k : String} {a : AssetHistory}
    (hp : PortfolioSorted p) (hg : getAccount p k = some a) : SortedByTs a.history := by
  unfold getAccount at hg
  cases hf : p.find? (fun e => e.1 = k) with
  | none => rw [hf] at hg; simp at hg
  | some e =>
      rw [hf] at hg
      simp at hg
      rw [← hg]
      exact hp e (List.mem_of_find?_eq_some hf)

theorem portfolioSorted_add_new {p : Portfolio} (hp : PortfolioSorted p) (a : String) :
    PortfolioSorted (add_new_asset_to_portfolio p a) := by
  unfold add_new_asset_to_portfolio
  split
  · exact hp
  · intro e he
    rcases List.mem_append.mp he with h | h
    · exact hp e h
    · simp at h
      subst h
      exact List.Pairwise.nil

theorem portfolioSorted_update_const {p : Portfolio} {b : AssetHistory} {k : String}
    (hp : PortfolioSorted p) (hb : SortedByTs b.history) :
    PortfolioSorted (updateAccount p k (fun _ => b)) := by
  intro e he
  unfold updateAccount at he
  rcases List.mem_map.mp he with ⟨e2, he2, rfl⟩
  split
  · exact hb
  · exact hp e2 he2

theorem add_to_portfolio_sorted {p p' : Portfolio} {t : Transaction}
    (hp : PortfolioSorted p) (hstep : add_to_portfolio p t = some (.ok p')) :
    PortfolioSorted p' := by
  by_cases hact : t.action = TransactionType.Convert
  · obtain ⟨c, hc⟩ : ∃ c, t.conversion_to = some c := by
      cases hcv : t.conversion_to with
      | none => rw [add_to_portfolio_panic p hact hcv] at hstep; simp at hstep
      | some c => exact ⟨c, rfl⟩
    obtain ⟨d, s, hd, hs, heq⟩ := add_to_portfolio_convert p t c hact hc
    rw [hstep] at heq
    simp only [Option.some.injEq, Except.ok.injEq] at heq
    subst heq
    have hP₁ : PortfolioSorted
        (add_new_asset_to_portfolio (add_new_asset_to_portfolio p t.asset) c.name) :=
      portfolioSorted_add_new (portfolioSorted_add_new hp _) _
    have hdsort : SortedByTs d.history := sortedHist_of_getAccount hP₁ hd
    have hd2 : SortedByTs
        (push_into_history { d with quantity := d.quantity + deltaAcct d.name t }
          t).history :=
      push_into_history_sorted hdsort
    have hp₂ : PortfolioSorted (updateAccount
        (add_new_asset_to_portfolio (add_new_asset_to_portfolio p t.asset) c.name) c.name
        (fun _ =>
          push_into_history { d with quantity := d.quantity + deltaAcct d.name t } t)) :=
      portfolioSorted_update_const hP₁ hd2
    have hssort : SortedByTs s.history := sortedHist_of_getAccount hp₂ hs
    exact portfolioSorted_update_const hp₂ (push_into_history_sorted hssort)
  · obtain ⟨a, ha, heq⟩ := add_to_portfolio_not_convert p t hact
    rw [hstep] at heq
    simp only [Option.some.injEq, Except.ok.injEq] at heq
    subst heq
    have hP₁ : PortfolioSorted (add_new_asset_to_portfolio p t.asset) :=
      portfolioSorted_add_new hp _
    have hasort : SortedByTs a.history := sortedHist_of_getAccount hP₁ ha
    exact portfolioSorted_update_const hP₁ (push_into_history_sorted hasort)

theorem applyAll_sorted (ts : List Transaction) :
    ∀ p p', PortfolioSorted p → applyAll p ts = some (.ok p') → PortfolioSorted p' := by
  induction ts with
  | nil =>
      intro p p' hp h
      unfold applyAll at h
      simp only [Option.some.injEq, Except.ok.injEq] at h
      subst h
      exact hp
  | cons t ts ih =>
      intro p p' hp h
      unfold applyAll at h
      cases hstep : add_to_portfolio p t with
      | none => rw [hstep] at h; simp at h
      | some r =>
          cases r with
          | error e => rw [hstep] at h; simp at h
          | ok q =>
              rw [hstep] at h
              exact ih q p' (add_to_portfolio_sorted hp hstep) h

/-- C3: after any sequence of transactions applied via `add_to_portfolio`
from the empty ledger — in any arrival order, including non-chronological —
every account's history is sorted in non-decreasing order of timestamp (and
since the sequence is arbitrary, this holds after each insertion). -/
theorem spec_c3 (ts : List Transaction) (p : Portfolio)
    (h : applyAll portfolioEmpty ts = some (.ok p)) : PortfolioSorted p :=
  applyAll_sorted ts portfolioEmpty p portfolioSorted_nil h

/-- The ledger produced by applying `btcSell` before `btcBuy` (reverse
chronological arrival): the history ends up sorted `[btcBuy, btcSell]`. -/
def btcOutOfOrder : Portfolio :=
  [("BTC", { name := "BTC", history := [btcBuy, btcSell],
             quantity := ((0 : ℚ) - 0.0005) + 0.000919 })]

/-- C3 (witness): the records arrive out of chronological order, yet the
resulting history is sorted. -/
theorem spec_c3_witness : PortfolioSorted btcOutOfOrder :=
  spec_c3 [btcSell, btcBuy] btcOutOfOrder
    (by simp [applyAll, add_to_portfolio, add_new_asset_to_portfolio, containsKey,
      getAccount, applyPrimary, updateAccount, add_transaction_to_asset,
      push_into_history, binarySearchPos, binarySearchGo, portfolioEmpty, btcBuy,
      btcSell, btcOutOfOrder, List.insertIdx])

/-! ## Equivalence machinery: the ledger ignores fields that the code never
reads (`price` always; `conversion_to` outside `Convert`) -/

/-- Two transactions that the ledger treats identically: equal timestamp,
action, asset and quantity, and equal `conversion_to` when the action is
`Convert` (the only case in which the code reads it). -/
def TxEquiv (t₁ t₂ : Transaction) : Prop :=
  t₁.timestamp = t₂.timestamp ∧ t₁.action = t₂.action ∧ t₁.asset = t₂.asset ∧
  t₁.quantity = t₂.quantity ∧
  (t₁.action = TransactionType.Convert → t₁.conversion_to = t₂.conversion_to)

theorem txEquiv_refl (t : Transaction) : TxEquiv t t :=
  ⟨rfl, rfl, rfl, rfl, fun _ => rfl⟩

/-- Accounts equal except for ignored transaction fields in their
histories. -/
def AcctEquiv (a₁ a₂ : AssetHistory) : Prop :=
  a₁.name = a₂.name ∧ a₁.quantity = a₂.quantity ∧
  List.Forall₂ TxEquiv a₁.history a₂.history

theorem acctEquiv_refl (a : AssetHistory) : AcctEquiv a a :=
  ⟨rfl, rfl, List.forall₂_same.mpr (fun x _ => txEquiv_refl x)⟩

/-- Ledgers with the same keys in the same positions, whose accounts are
`AcctEquiv`. -/
def PortEquiv (p₁ p₂ : Portfolio) : Prop :=
  List.Forall₂ (fun e₁ e₂ => e₁.1 = e₂.1 ∧ AcctEquiv e₁.2 e₂.2) p₁ p₂

theorem portEquiv_refl (p : Portfolio) : PortEquiv p p :=
  List.forall₂_same.mpr (fun e _ => ⟨rfl, acctEquiv_refl e.2⟩)

theorem txEquiv_getD_ts {xs₁ xs₂ : List Transaction}
    (h : List.Forall₂ TxEquiv xs₁ xs₂) (i : ℕ) :
    (xs₁.getD i default).timestamp = (xs₂.getD i default).timestamp := by
  rcases List.forall₂_iff_get.mp h with ⟨hlen, hget⟩
  by_cases hi : i < xs₁.length
  · have hi2 : i < xs₂.length := by omega
    rw [List.getD_eq_getElem xs₁ default hi, List.getD_eq_getElem xs₂ default hi2]
    have h2 := (hget i hi hi2).1
    rw [List.get_eq_getElem, List.get_eq_getElem] at h2
    exact h2
  · have hi2 : ¬ i < xs₂.length := by omega
    rw [List.getD_eq_default xs₁ default (by omega), List.getD_eq_default xs₂ default
      (by omega)]

theorem binarySearchGo_congr {xs₁ xs₂ : List Transaction} {t₁ t₂ : Transaction}
    (hxs : List.Forall₂ TxEquiv xs₁ xs₂) (hts : t₁.timestamp = t₂.timestamp) :
    ∀ n left right, right - left = n →
      binarySearchGo xs₁ t₁ left right = binarySearchGo xs₂ t₂ left right := by
  intro n
  induction n using Nat.strong_induction_on with
  | _ n ih =>
    intro left right hn
    rw [binarySearchGo, binarySearchGo]
    by_cases h : left < right
    · rw [dif_pos h, dif_pos h]
      dsimp only
      rw [← txEquiv_getD_ts hxs (left + (right - left) / 2), ← hts]
      split
      · exact ih (right - (left + (right - left) / 2 + 1)) (by omega) _ _ rfl
      · split
        · exact ih ((left + (right - left) / 2) - left) (by omega) _ _ rfl
        · rfl
    · rw [dif_neg h, dif_neg h]

theorem binarySearchPos_congr {xs₁ xs₂ : List Transaction} {t₁ t₂ : Transaction}
    (hxs : List.Forall₂ TxEquiv xs₁ xs₂) (hts : t₁.timestamp = t₂.timestamp) :
    binarySearchPos xs₁ t₁ = binarySearchPos xs₂ t₂ := by
  unfold binarySearchPos
  rw [hxs.length_eq]
  exact binarySearchGo_congr hxs hts _ 0 xs₂.length rfl

theorem forall₂_insertIdx {α β : Type} {R : α → β → Prop} {x : α} {y : β}
    (hxy : R x y) :
    ∀ (n : ℕ) {l₁ : List α} {l₂ : List β}, List.Forall₂ R l₁ l₂ →
      List.Forall₂ R (l₁.insertIdx n x) (l₂.insertIdx n y) := by
  intro n
  induction n with
  | zero =>
      intro l₁ l₂ h
      rw [List.insertIdx_zero, List.insertIdx_zero]
      exact List.Forall₂.cons hxy h
  | succ n ih =>
      intro l₁ l₂ h
      cases h with
      | nil =>
          rw [List.insertIdx_succ_nil, List.insertIdx_succ_nil]
          exact List.Forall₂.nil
      | cons hab h2 =>
          rw [List.insertIdx_succ_cons, List.insertIdx_succ_cons]
          exact List.Forall₂.cons hab (ih h2)

theorem push_into_history_equiv {a₁ a₂ : AssetHistory} {t₁ t₂ : Transaction}
    (ha : AcctEquiv a₁ a₂) (ht : TxEquiv t₁ t₂) :
    AcctEquiv (push_into_history a₁ t₁) (push_into_history a₂ t₂) := by
  obtain ⟨hn, hq, hh⟩ := ha
  refine ⟨hn, hq, ?_⟩
  rw [push_into_history_history, push_into_history_history,
    binarySearchPos_congr hh ht.1]
  exact forall₂_insertIdx ht _ hh

theorem deltaAcct_congr {t₁ t₂ : Transaction} (n : String) (ht : TxEquiv t₁ t₂) :
    deltaAcct n t₁ = deltaAcct n t₂ := by
  obtain ⟨hts, hact, hasset, hqty, hconv⟩ := ht
  unfold deltaAcct
  rw [← hact]
  cases h1 : t₁.action with
  | Buy => exact hqty
  | Sell => rw [hqty]
  | Income => exact hqty
  | Convert =>
      rw [← hconv h1]
      cases t₁.conversion_to with
      | none => rfl
      | some c => rw [hqty]

theorem add_transaction_to_asset_equiv {a₁ a₂ : AssetHistory} {t₁ t₂ : Transaction}
    (ha : AcctEquiv a₁ a₂) (ht : TxEquiv t₁ t₂) :
    (add_transaction_to_asset a₁ t₁ = none ∧ add_transaction_to_asset a₂ t₂ = none) ∨
    (∃ b₁ b₂, add_transaction_to_asset a₁ t₁ = some b₁ ∧
      add_transaction_to_asset a₂ t₂ = some b₂ ∧ AcctEquiv b₁ b₂) := by
  rw [add_transaction_to_asset_eq, add_transaction_to_asset_eq]
  obtain ⟨hts, hact, hasset, hqty, hconv⟩ := ht
  by_cases hpanic : t₁.action = TransactionType.Convert ∧ t₁.conversion_to = none
  · left
    have hpanic2 : t₂.action = TransactionType.Convert ∧ t₂.conversion_to = none :=
      ⟨hact ▸ hpanic.1, (hconv hpanic.1) ▸ hpanic.2⟩
    rw [if_pos hpanic, if_pos hpanic2]
    exact ⟨rfl, rfl⟩
  · right
    have hpanic2 : ¬(t₂.action = TransactionType.Convert ∧ t₂.conversion_to = none) := by
      rintro ⟨h1, h2⟩
      exact hpanic ⟨hact.trans h1, (hconv (hact.trans h1)).trans h2⟩
    refine ⟨_, _, by rw [if_neg hpanic], by rw [if_neg hpanic2], ?_⟩
    refine push_into_history_equiv ⟨ha.1, ?_, ha.2.2⟩ ⟨hts, hact, hasset, hqty, hconv⟩
    rw [ha.2.1, ha.1, deltaAcct_congr a₂.name ⟨hts, hact, hasset, hqty, hconv⟩]

theorem getAccount_equiv {p₁ p₂ : Portfolio} (hp : PortEquiv p₁ p₂) (k : String) :
    (getAccount p₁ k = none ∧ getAccount p₂ k = none) ∨
    (∃ a₁ a₂, getAccount p₁ k = some a₁ ∧ getAccount p₂ k = some a₂ ∧
      AcctEquiv a₁ a₂) := by
  induction hp with
  | nil => exact Or.inl ⟨rfl, rfl⟩
  | cons he hrest ih =>
      rename_i e₁ e₂ l₁ l₂
      rw [getAccount_cons, getAccount_cons]
      by_cases hk : e₁.1 = k
      · exact Or.inr ⟨e₁.2, e₂.2, by rw [if_pos hk],
          by rw [if_pos (he.1.symm.trans hk)], he.2⟩
      · rw [if_neg hk, if_neg (fun h => hk (he.1.trans h))]
        exact ih

theorem containsKey_equiv {p₁ p₂ : Portfolio} (hp : PortEquiv p₁ p₂) (k : String) :
    containsKey p₁ k = containsKey p₂ k := by
  induction hp with
  | nil => rfl
  | cons he hrest ih =>
      rw [containsKey_cons, containsKey_cons, he.1, ih]

theorem add_new_equiv {p₁ p₂ : Portfolio} (hp : PortEquiv p₁ p₂) (a : String) :
    PortEquiv (add_new_asset_to_portfolio p₁ a) (add_new_asset_to_portfolio p₂ a) := by
  unfold add_new_asset_to_portfolio
  rw [containsKey_equiv hp a]
  split
  · exact hp
  · exact List.rel_append hp
      (List.Forall₂.cons ⟨rfl, acctEquiv_refl _⟩ List.Forall₂.nil)

theorem updateAccount_equiv {p₁ p₂ : Portfolio} {b₁ b₂ : AssetHistory} {k : String}
    (hp : PortEquiv p₁ p₂) (hb : AcctEquiv b₁ b₂) :
    PortEquiv (updateAccount p₁ k (fun _ => b₁)) (updateAccount p₂ k (fun _ => b₂)) := by
  induction hp with
  | nil => exact List.Forall₂.nil
  | cons he hrest ih =>
      rename_i e₁ e₂ l₁ l₂
      unfold updateAccount
      rw [List.map_cons, List.map_cons]
      refine List.Forall₂.cons ?_ ih
      by_cases hk : e₁.1 = k
      · rw [if_pos hk, if_pos (he.1.symm.trans hk)]
        exact ⟨he.1, hb⟩
      · rw [if_neg hk, if_neg (fun h => hk (he.1.trans h))]
        exact he

/-- Relation between two run results: both panicked, or both failed with the
same error, or both succeeded with equivalent ledgers. -/
def ResEquiv : Option (Except PortfolioError Portfolio) →
    Option (Except PortfolioError Portfolio) → Prop
  | none, none => True
  | some (.error e₁), some (.error e₂) => e₁ = e₂
  | some (.ok q₁), some (.ok q₂) => PortEquiv q₁ q₂
  | _, _ => False

theorem applyPrimary_equiv {p₁ p₂ : Portfolio} {t₁ t₂ : Transaction}
    (hp : PortEquiv p₁ p₂) (ht : TxEquiv t₁ t₂) :
    ResEquiv (applyPrimary p₁ t₁) (applyPrimary p₂ t₂) := by
  have hasset : t₁.asset = t₂.asset := ht.2.2.1
  unfold applyPrimary
  rw [← hasset]
  rcases getAccount_equiv hp t₁.asset with ⟨h1, h2⟩ | ⟨a₁, a₂, h1, h2, heq⟩
  · rw [h1, h2]
    exact rfl
  · rw [h1, h2]
    dsimp only
    rcases add_transaction_to_asset_equiv heq ht with ⟨hn1, hn2⟩ |
      ⟨b₁, b₂, hb1, hb2, hbeq⟩
    · rw [hn1, hn2]
      exact trivial
    · rw [hb1, hb2]
      dsimp only
      exact updateAccount_equiv hp hbeq

theorem add_to_portfolio_equiv {p₁ p₂ : Portfolio} {t₁ t₂ : Transaction}
    (hp : PortEquiv p₁ p₂) (ht : TxEquiv t₁ t₂) :
    ResEquiv (add_to_portfolio p₁ t₁) (add_to_portfolio p₂ t₂) := by
  obtain ⟨hts, hact, hasset, hqty, hconv⟩ := ht
  unfold add_to_portfolio
  dsimp only
  rw [← hasset, ← hact]
  by_cases hC : t₁.action = TransactionType.Convert
  · rw [if_pos hC, if_pos hC]
    rw [← hconv hC]
    cases hc : t₁.conversion_to with
    | none => exact trivial
    | some c =>
        dsimp only
        have hp₁ : PortEquiv
            (add_new_asset_to_portfolio (add_new_asset_to_portfolio p₁ t₁.asset) c.name)
            (add_new_asset_to_portfolio (add_new_asset_to_portfolio p₂ t₁.asset) c.name) :=
          add_new_equiv (add_new_equiv hp _) _
        rcases getAccount_equiv hp₁ c.name with ⟨h1, h2⟩ | ⟨d₁, d₂, h1, h2, hdeq⟩
        · rw [h1, h2]
          exact rfl
        · rw [h1, h2]
          dsimp only
          rcases add_transaction_to_asset_equiv hdeq
              ⟨hts, hact, hasset, hqty, hconv⟩ with ⟨hn1, hn2⟩ |
            ⟨b₁, b₂, hb1, hb2, hbeq⟩
          · rw [hn1, hn2]
            exact trivial
          · rw [hb1, hb2]
            dsimp only
            exact applyPrimary_equiv (updateAccount_equiv hp₁ hbeq)
              ⟨hts, hact, hasset, hqty, hconv⟩
  · rw [if_neg hC, if_neg hC]
    exact applyPrimary_equiv (add_new_equiv hp _) ⟨hts, hact, hasset, hqty, hconv⟩

theorem applyAll_equiv {ts₁ ts₂ : List Transaction}
    (h : List.Forall₂ TxEquiv ts₁ ts₂) :
    ∀ p₁ p₂, PortEquiv p₁ p₂ → ResEquiv (applyAll p₁ ts₁) (applyAll p₂ ts₂) := by
  induction h with
  | nil =>
      intro p₁ p₂ hp
      exact hp
  | cons hab hrest ih =>
      intro p₁ p₂ hp
      unfold applyAll
      have hstep := add_to_portfolio_equiv hp hab
      rename_i x₁ x₂ r₁ r₂
      cases h1 : add_to_portfolio p₁ x₁ with
      | none =>
          cases h2 : add_to_portfolio p₂ x₂ with
          | none => exact trivial
          | some r =>
              rw [h1, h2] at hstep
              cases r with
              | error e => exact hstep.elim
              | ok q => exact hstep.elim
      | some v₁ =>
          cases h2 : add_to_portfolio p₂ x₂ with
          | none =>
              rw [h1, h2] at hstep
              cases v₁ with
              | error e => exact hstep.elim
              | ok q => exact hstep.elim
          | some v₂ =>
              rw [h1, h2] at hstep
              cases v₁ with
              | error e₁ =>
                  cases v₂ with
                  | error e₂ => exact hstep
                  | ok q₂ => exact hstep.elim
              | ok q₁ =>
                  cases v₂ with
                  | error e₂ => exact hstep.elim
                  | ok q₂ => exact ih q₁ q₂ hstep

theorem portEquiv_keys {p₁ p₂ : Portfolio} (hp : PortEquiv p₁ p₂) :
    p₁.map Prod.fst = p₂.map Prod.fst := by
  induction hp with
  | nil => rfl
  | cons he hrest ih => rw [List.map_cons, List.map_cons, he.1, ih]

theorem txEquiv_map_ts {l₁ l₂ : List Transaction} (h : List.Forall₂ TxEquiv l₁ l₂) :
    l₁.map Transaction.timestamp = l₂.map Transaction.timestamp := by
  induction h with
  | nil => rfl
  | cons hab hrest ih => rw [List.map_cons, List.map_cons, hab.1, ih]

theorem portEquiv_qtyOf {p₁ p₂ : Portfolio} (hp : PortEquiv p₁ p₂) (k : String) :
    qtyOf p₁ k = qtyOf p₂ k := by
  rcases getAccount_equiv hp k with ⟨h1, h2⟩ | ⟨a₁, a₂, h1, h2, heq⟩
  · simp [qtyOf, h1, h2]
  · simp [qtyOf, h1, h2, heq.2.1]

theorem portEquiv_histLenOf {p₁ p₂ : Portfolio} (hp : PortEquiv p₁ p₂) (k : String) :
    histLenOf p₁ k = histLenOf p₂ k := by
  rcases getAccount_equiv hp k with ⟨h1, h2⟩ | ⟨a₁, a₂, h1, h2, heq⟩
  · simp [histLenOf, h1, h2]
  · simp [histLenOf, h1, h2, heq.2.2.length_eq]

theorem portEquiv_timestampsOf {p₁ p₂ : Portfolio} (hp : PortEquiv p₁ p₂) (k : String) :
    timestampsOf p₁ k = timestampsOf p₂ k := by
  rcases getAccount_equiv hp k with ⟨h1, h2⟩ | ⟨a₁, a₂, h1, h2, heq⟩
  · simp [timestampsOf, h1, h2]
  · simp [timestampsOf, h1, h2, txEquiv_map_ts heq.2.2]

/-- Two transactions identical except for the `price` field. -/
def PriceEquiv (t₁ t₂ : Transaction) : Prop :=
  t₁.timestamp = t₂.timestamp ∧ t₁.action = t₂.action ∧ t₁.asset = t₂.asset ∧
  t₁.quantity = t₂.quantity ∧ t₁.conversion_to = t₂.conversion_to

theorem priceEquiv_txEquiv {t₁ t₂ : Transaction} (h : PriceEquiv t₁ t₂) :
    TxEquiv t₁ t₂ :=
  ⟨h.1, h.2.1, h.2.2.1, h.2.2.2.1, fun _ => h.2.2.2.2⟩

/-- C8: price non-interference — two streams identical except for prices
produce ledgers with the same keys in the same order, and for every key the
same quantity, the same history length and the same timestamp at every
position. -/
theorem spec_c8 (ts₁ ts₂ : List Transaction) (p₁ p₂ : Portfolio) (k : String)
    (h : List.Forall₂ PriceEquiv ts₁ ts₂)
    (h₁ : applyAll portfolioEmpty ts₁ = some (.ok p₁))
    (h₂ : applyAll portfolioEmpty ts₂ = some (.ok p₂)) :
    p₁.map Prod.fst = p₂.map Prod.fst ∧ qtyOf p₁ k = qtyOf p₂ k ∧
    histLenOf p₁ k = histLenOf p₂ k ∧ timestampsOf p₁ k = timestampsOf p₂ k := by
  have hres := applyAll_equiv
    (h.imp (fun _ _ hab => priceEquiv_txEquiv hab)) portfolioEmpty portfolioEmpty
    (portEquiv_refl _)
  rw [h₁, h₂] at hres
  have hpe : PortEquiv p₁ p₂ := hres
  exact ⟨portEquiv_keys hpe, portEquiv_qtyOf hpe k, portEquiv_histLenOf hpe k,
    portEquiv_timestampsOf hpe k⟩

/-- `btcBuy` with a different price. -/
def btcBuyPricey : Transaction := { btcBuy with price := 999 }

/-- The ledger produced by `btcBuy` alone. -/
def btcBuyRes : Portfolio :=
  [("BTC", { name := "BTC", history := [btcBuy], quantity := (0 : ℚ) + 0.000919 })]

/-- The ledger produced by `btcBuyPricey` alone. -/
def btcPriceyRes : Portfolio :=
  [("BTC", { name := "BTC", history := [btcBuyPricey],
             quantity := (0 : ℚ) + 0.000919 })]

/-- C8 (witness): one-transaction streams differing only in price. -/
theorem spec_c8_witness :
    btcBuyRes.map Prod.fst = btcPriceyRes.map Prod.fst ∧
    qtyOf btcBuyRes "BTC" = qtyOf btcPriceyRes "BTC" ∧
    histLenOf btcBuyRes "BTC" = histLenOf btcPriceyRes "BTC" ∧
    timestampsOf btcBuyRes "BTC" = timestampsOf btcPriceyRes "BTC" :=
  spec_c8 [btcBuy] [btcBuyPricey] btcBuyRes btcPriceyRes "BTC"
    (List.Forall₂.cons ⟨rfl, rfl, rfl, rfl, rfl⟩ List.Forall₂.nil)
    (by simp [applyAll, add_to_portfolio, add_new_asset_to_portfolio, containsKey,
      getAccount, applyPrimary, updateAccount, add_transaction_to_asset,
      push_into_history, binarySearchPos, binarySearchGo, portfolioEmpty, btcBuy,
      btcBuyRes, List.insertIdx])
    (by simp [applyAll, add_to_portfolio, add_new_asset_to_portfolio, containsKey,
      getAccount, applyPrimary, updateAccount, add_transaction_to_asset,
      push_into_history, binarySearchPos, binarySearchGo, portfolioEmpty, btcBuy,
      btcBuyPricey, btcPriceyRes, List.insertIdx])

/-- Success-side projection of a run result: the touched key's quantity,
history length and history timestamps. -/
def okProjection (k : String) :
    Option (Except PortfolioError Portfolio) → Option (ℚ × ℕ × List ℤ)
  | some (.ok p) => some (qtyOf p k, histLenOf p k, timestampsOf p k)
  | _ => none

/-- C10: for Buy, Sell and Income the `conversion_to` field is never read —
the call succeeds (no panic) whatever the field holds, and the resulting
quantity, history length and history timestamps are identical whether the
field is `none` or any `some`. -/
theorem spec_c10 (p : Portfolio) (t : Transaction) (o₁ o₂ : Option CoinConversion)
    (k : String) (hact : t.action ≠ TransactionType.Convert) :
    isOk (add_to_portfolio p { t with conversion_to := o₁ }) = true ∧
    isOk (add_to_portfolio p { t with conversion_to := o₂ }) = true ∧
    okProjection k (add_to_portfolio p { t with conversion_to := o₁ })
      = okProjection k (add_to_portfolio p { t with conversion_to := o₂ }) := by
  have ht : TxEquiv { t with conversion_to := o₁ } { t with conversion_to := o₂ } :=
    ⟨rfl, rfl, rfl, rfl, fun h => absurd h hact⟩
  obtain ⟨a₁, _, heq₁⟩ :=
    add_to_portfolio_not_convert p { t with conversion_to := o₁ } hact
  obtain ⟨a₂, _, heq₂⟩ :=
    add_to_portfolio_not_convert p { t with conversion_to := o₂ } hact
  have hres := add_to_portfolio_equiv (portEquiv_refl p) ht
  rw [heq₁, heq₂] at hres
  have hpe := hres
  rw [heq₁, heq₂]
  refine ⟨rfl, rfl, ?_⟩
  show some _ = some _
  rw [portEquiv_qtyOf hpe k, portEquiv_histLenOf hpe k, portEquiv_timestampsOf hpe k]

/-- C10 (witness): a Buy with `conversion_to` absent versus present. -/
theorem spec_c10_witness :
    isOk (add_to_portfolio portfolioEmpty { btcBuy with conversion_to := none })
      = true ∧
    isOk (add_to_portfolio portfolioEmpty
      { btcBuy with conversion_to := some { name := "ETH", quantity := 3 } }) = true ∧
    okProjection "BTC"
        (add_to_portfolio portfolioEmpty { btcBuy with conversion_to := none })
      = okProjection "BTC"
        (add_to_portfolio portfolioEmpty
          { btcBuy with conversion_to := some { name := "ETH", quantity := 3 } }) :=
  spec_c10 portfolioEmpty btcBuy none (some { name := "ETH", quantity := 3 }) "BTC"
    (by decide)

end CoinTax
